import Mathlib

/-!
Verification development for the task deduplication and distributed
processing queue of redis_tasks.py: the key codec (format_key / parse_key),
the result and pending stores, the task manager submission path, and the
two processor-loop disciplines (sampling via RANDOMKEY, priority via
per-type sorted sets with BZPOPMAX), including the cooperative-exclusion
lock variant.
-/

namespace RedisTasks

/-- Shallow embedding of the Python JSON-serializable values used as task
parameters and results.  Numbers are arbitrary-precision integers plus the
three non-finite IEEE specials, which Python json serializes as the
constants NaN / Infinity / -Infinity (allow_nan defaults to True); finite
non-integral floats are outside the model.  Python dicts are association
lists in insertion order with distinct keys. -/
inductive JValue where
  | null : JValue
  | bool (b : Bool) : JValue
  | int (n : Int) : JValue
  | nan : JValue
  | inf : JValue
  | ninf : JValue
  | str (s : String) : JValue
  | arr (xs : List JValue) : JValue
  | obj (kvs : List (String × JValue)) : JValue
deriving Repr

/-- Lowercase hex digit, as produced by Python's `'%04x'` formatting in
`py_encode_basestring_ascii`. -/
def hexDigitChar (n : Nat) : Char :=
  if n < 10 then Char.ofNat (48 + n) else Char.ofNat (87 + n)

/-- A `\uXXXX` escape (lowercase hex), for code unit `n < 0x10000`. -/
def uEscape (n : Nat) : List Char :=
  ['\\', 'u', hexDigitChar (n / 4096 % 16), hexDigitChar (n / 256 % 16),
   hexDigitChar (n / 16 % 16), hexDigitChar (n % 16)]

/-- Encoding of one character of a JSON string, following CPython's
`json.encoder.py_encode_basestring_ascii` (ensure_ascii=True, the
json.dumps default): printable ASCII except quote and backslash is
literal, the five shorthand escapes are used, and everything else becomes
`\uXXXX` (astral characters as a surrogate pair). -/
def encodeChar (c : Char) : List Char :=
  if c = '"' then ['\\', '"']
  else if c = '\\' then ['\\', '\\']
  else if c = Char.ofNat 8 then ['\\', 'b']
  else if c = Char.ofNat 9 then ['\\', 't']
  else if c = Char.ofNat 10 then ['\\', 'n']
  else if c = Char.ofNat 12 then ['\\', 'f']
  else if c = Char.ofNat 13 then ['\\', 'r']
  else if 32 ≤ c.toNat ∧ c.toNat ≤ 126 then [c]
  else if c.toNat < 65536 then uEscape c.toNat
  else
    uEscape (55296 + (c.toNat - 65536) / 1024) ++ uEscape (56320 + (c.toNat - 65536) % 1024)

/-- JSON serialization of a string: quote, escaped characters, quote. -/
def encodeString (s : String) : List Char :=
  '"' :: (s.data.map encodeChar).flatten ++ ['"']

/-- Decimal digits of a natural number, most significant first. -/
def natToDigits (n : Nat) : List Char :=
  if _h : n < 10 then [hexDigitChar n]
  else natToDigits (n / 10) ++ [hexDigitChar (n % 10)]
decreasing_by omega

/-- Python `repr` of an int, as emitted by json.dumps for integers. -/
def intToChars (n : Int) : List Char :=
  if n < 0 then '-' :: natToDigits n.natAbs else natToDigits n.natAbs

mutual

/-- `json.dumps` with the default separators `', '` and `': '`, producing
the character list of the serialization. -/
def dumpChars : JValue → List Char
  | .null => ['n', 'u', 'l', 'l']
  | .int n => intToChars n
  | .bool true => 't' :: ['r', 'u', 'e']
  | .bool false => 'f' :: ['a', 'l', 's', 'e']
  | .nan => ['N', 'a', 'N']
  | .inf => ['I', 'n', 'f', 'i', 'n', 'i', 't', 'y']
  | .ninf => '-' :: ['I', 'n', 'f', 'i', 'n', 'i', 't', 'y']
  | .str s => encodeString s
  | .arr xs => '[' :: dumpItems xs ++ [']']
  | .obj kvs => '\x7b' :: dumpMembers kvs ++ ['\x7d']

/-- Array elements joined by `', '`. -/
def dumpItems : List JValue → List Char
  | [] => []
  | [v] => dumpChars v
  | v :: w :: rest => dumpChars v ++ ',' :: ' ' :: dumpItems (w :: rest)

/-- Object members `"k": v` joined by `', '`, keys in insertion order. -/
def dumpMembers : List (String × JValue) → List Char
  | [] => []
  | [(k, v)] => encodeString k ++ ':' :: ' ' :: dumpChars v
  | (k, v) :: kv :: rest =>
      encodeString k ++ ':' :: ' ' :: dumpChars v ++ ',' :: ' ' :: dumpMembers (kv :: rest)

end

/-- `json.dumps` as a string. -/
def dumps (v : JValue) : String := String.mk (dumpChars v)

/-- A Python 2-tuple `(k, v)` is serialized by json as the array `[k, v]`. -/
def pairToJson (kv : String × JValue) : JValue := .arr [.str kv.1, kv.2]

/-- Comparator used by `sorted(key_params.items())`.  Python compares the
`(key, value)` tuples lexicographically, but since dict keys are distinct
the comparison never reaches the values, so it reduces to the key order. -/
def keyLe (a b : String × JValue) : Prop := a.1 ≤ b.1

instance : DecidableRel keyLe := fun a b => inferInstanceAs (Decidable (a.1 ≤ b.1))

instance : IsTotal (String × JValue) keyLe := ⟨fun a b => le_total a.1 b.1⟩

instance : IsTrans (String × JValue) keyLe := ⟨fun _ _ _ h1 h2 => le_trans h1 h2⟩

/-- `sorted(key_params.items())`: a stable sort of the items by key. -/
def sortItems (p : List (String × JValue)) : List (String × JValue) :=
  List.insertionSort keyLe p

/-- The JSON value `[key_type, sorted(key_params.items())]` serialized by
`format_key`. -/
def keyJson (key_type : String) (key_params : List (String × JValue)) : JValue :=
  .arr [.str key_type, .arr ((sortItems key_params).map pairToJson)]

/-- `format_key(key_type, key_params)`:
`json.dumps([key_type, sorted(key_params.items())])`. -/
def format_key (key_type : String) (key_params : List (String × JValue)) : String :=
  dumps (keyJson key_type key_params)

/-! ## json.loads

A recursive-descent parser for the JSON grammar accepted by CPython's
pure-Python scanner (strict mode, default hooks), restricted to the value
domain of the model: numbers with a fraction or exponent part (finite
non-integral floats) and lone surrogate escapes (strings outside Unicode
scalar values) are rejected instead of parsed.  Parse failure models the
ValueError/JSONDecodeError raised by `json.loads`. -/

/-- JSON whitespace, ` \t\n\r`. -/
def isJsonWs (c : Char) : Bool :=
  c = ' ' || c = Char.ofNat 9 || c = Char.ofNat 10 || c = Char.ofNat 13

def skipWs : List Char → List Char
  | [] => []
  | c :: rest => if isJsonWs c then skipWs rest else c :: rest

/-- Value of a hex digit (both cases accepted, as by `int(s, 16)`). -/
def hexVal (c : Char) : Option Nat :=
  if '0' ≤ c ∧ c ≤ '9' then some (c.toNat - 48)
  else if 'a' ≤ c ∧ c ≤ 'f' then some (c.toNat - 87)
  else if 'A' ≤ c ∧ c ≤ 'F' then some (c.toNat - 55)
  else none

/-- Four hex digits of a `\uXXXX` escape. -/
def parseHex4 : List Char → Option (Nat × List Char)
  | a :: b :: c :: d :: rest => do
      let va ← hexVal a
      let vb ← hexVal b
      let vc ← hexVal c
      let vd ← hexVal d
      pure (va * 4096 + vb * 256 + vc * 16 + vd, rest)
  | _ => none

/-- The single-character escapes of `json.decoder.BACKSLASH`. -/
def escChar (e : Char) : Option Char :=
  if e = '"' then some '"'
  else if e = '\\' then some '\\'
  else if e = '/' then some '/'
  else if e = 'b' then some (Char.ofNat 8)
  else if e = 'f' then some (Char.ofNat 12)
  else if e = 'n' then some (Char.ofNat 10)
  else if e = 'r' then some (Char.ofNat 13)
  else if e = 't' then some (Char.ofNat 9)
  else none

/-- Scan a JSON string body after the opening quote, following
`py_scanstring` (strict mode): raw control characters are rejected, the
backslash escapes are decoded, and a high surrogate escape must be
followed by a low one (a lone surrogate would produce a non-scalar Python
string, which is outside the model).  Returns the decoded characters and
the input after the closing quote. -/
def scanString : Nat → List Char → Option (List Char × List Char)
  | 0, _ => none
  | fuel + 1, cs =>
    match cs with
    | [] => none
    | c :: rest =>
      if c = '"' then some ([], rest)
      else if c = '\\' then
        match rest with
        | [] => none
        | e :: rest1 =>
          if e = 'u' then
            match parseHex4 rest1 with
            | none => none
            | some (n, rest2) =>
              if 55296 ≤ n ∧ n < 56320 then
                match rest2 with
                | '\\' :: 'u' :: rest3 =>
                  match parseHex4 rest3 with
                  | none => none
                  | some (n2, rest4) =>
                    if 56320 ≤ n2 ∧ n2 < 57344 then
                      (scanString fuel rest4).map
                        (fun p =>
                          (Char.ofNat (65536 + (n - 55296) * 1024 + (n2 - 56320)) :: p.1, p.2))
                    else none
                | _ => none
              else if 56320 ≤ n ∧ n < 57344 then none
              else (scanString fuel rest2).map (fun p => (Char.ofNat n :: p.1, p.2))
          else
            match escChar e with
            | none => none
            | some d => (scanString fuel rest1).map (fun p => (d :: p.1, p.2))
      else if c.toNat < 32 then none
      else (scanString fuel rest).map (fun p => (c :: p.1, p.2))

/-- Decimal digit value. -/
def digitVal (c : Char) : Option Nat :=
  if '0' ≤ c ∧ c ≤ '9' then some (c.toNat - 48) else none

/-- Take the maximal run of decimal digits. -/
def takeDigits : List Char → List Nat × List Char
  | [] => ([], [])
  | c :: rest =>
    match digitVal c with
    | some d => let p := takeDigits rest; (d :: p.1, p.2)
    | none => ([], c :: rest)

def digitsToNat (ds : List Nat) : Nat := ds.foldl (fun a d => a * 10 + d) 0

/-- An unsigned JSON integer literal (leading zeros are rejected by the
grammar's `(?:0|[1-9]\d*)`). -/
def parseNat (cs : List Char) : Option (Nat × List Char) :=
  match takeDigits cs with
  | ([], _) => none
  | (d :: ds, rest) =>
    if d = 0 ∧ ds ≠ [] then none
    else some (digitsToNat (d :: ds), rest)

/-- True when the next character would extend the numeric literal into a
float (`.`, `e`, `E`); floats are outside the model's value domain. -/
def nextIsFloaty : List Char → Bool
  | [] => false
  | c :: _ => c = '.' || c = 'e' || c = 'E'

/-- A signed JSON integer literal. -/
def parseIntTok (cs : List Char) : Option (Int × List Char) :=
  if cs.head? = some '-' then
    (parseNat cs.tail).bind fun p =>
      if nextIsFloaty p.2 then none else some (-(p.1 : Int), p.2)
  else
    (parseNat cs).bind fun p =>
      if nextIsFloaty p.2 then none else some ((p.1 : Int), p.2)

/-- Strip an expected literal from the head of the input, returning the
remainder when it is present. -/
def stripPre : List Char → List Char → Option (List Char)
  | [], cs => some cs
  | _ :: _, [] => none
  | p :: ps, c :: cs => if c = p then stripPre ps cs else none

/-- `dict.__setitem__`: replace the value in place if the key is present
(keeping its position), otherwise append. -/
def mset (k : String) (v : α) : List (String × α) → List (String × α)
  | [] => [(k, v)]
  | (k1, v1) :: rest => if k1 = k then (k1, v) :: rest else (k1, v1) :: mset k v rest

/-- `dict(pairs)`: left fold of insertions (later duplicates win). -/
def mkPyDict (pairs : List (String × JValue)) : List (String × JValue) :=
  pairs.foldl (fun d kv => mset kv.1 kv.2 d) []

mutual

/-- Parse one JSON value at the head of the input (whitespace already
skipped), following the dispatch order of `py_make_scanner.scan_once`. -/
def parseValue : Nat → List Char → Option (JValue × List Char)
  | 0, _ => none
  | fuel + 1, cs =>
    match cs with
    | [] => none
    | c :: rest =>
      if c = '"' then
        (scanString (rest.length + 1) rest).map (fun p => (.str (String.mk p.1), p.2))
      else if c = '\x7b' then
        match skipWs rest with
        | '\x7d' :: rest1 => some (.obj [], rest1)
        | cs1 => (parseMembers fuel cs1).map (fun p => (.obj (mkPyDict p.1), p.2))
      else if c = '[' then
        match skipWs rest with
        | ']' :: rest1 => some (.arr [], rest1)
        | cs1 => (parseItems fuel cs1).map (fun p => (.arr p.1, p.2))
      else
        match stripPre ['n', 'u', 'l', 'l'] cs with
        | some rest1 => some (.null, rest1)
        | none =>
        match stripPre ['t', 'r', 'u', 'e'] cs with
        | some rest1 => some (.bool true, rest1)
        | none =>
        match stripPre ['f', 'a', 'l', 's', 'e'] cs with
        | some rest1 => some (.bool false, rest1)
        | none =>
        match stripPre ['N', 'a', 'N'] cs with
        | some rest1 => some (.nan, rest1)
        | none =>
        match stripPre ['I', 'n', 'f', 'i', 'n', 'i', 't', 'y'] cs with
        | some rest1 => some (.inf, rest1)
        | none =>
        match stripPre ['-', 'I', 'n', 'f', 'i', 'n', 'i', 't', 'y'] cs with
        | some rest1 => some (.ninf, rest1)
        | none => (parseIntTok cs).map (fun p => (.int p.1, p.2))

/-- Parse the elements of a non-empty array after `[` (whitespace already
skipped), up to and including the closing `]`. -/
def parseItems : Nat → List Char → Option (List JValue × List Char)
  | 0, _ => none
  | fuel + 1, cs =>
    match parseValue fuel cs with
    | none => none
    | some (v, rest) =>
      match skipWs rest with
      | ']' :: rest1 => some ([v], rest1)
      | ',' :: rest1 => (parseItems fuel (skipWs rest1)).map (fun p => (v :: p.1, p.2))
      | _ => none

/-- Parse the members of a non-empty object after `{` (whitespace already
skipped), up to and including the closing `}`, in text order. -/
def parseMembers : Nat → List Char → Option (List (String × JValue) × List Char)
  | 0, _ => none
  | fuel + 1, cs =>
    match cs with
    | '"' :: rest =>
      match scanString (rest.length + 1) rest with
      | none => none
      | some (kcs, rest1) =>
        match skipWs rest1 with
        | ':' :: rest2 =>
          match parseValue fuel (skipWs rest2) with
          | none => none
          | some (v, rest3) =>
            match skipWs rest3 with
            | '\x7d' :: rest4 => some ([(String.mk kcs, v)], rest4)
            | ',' :: rest4 =>
              (parseMembers fuel (skipWs rest4)).map
                (fun p => ((String.mk kcs, v) :: p.1, p.2))
            | _ => none
        | _ => none
    | _ => none

end

/-- `json.loads`: skip leading whitespace, parse one value, require only
whitespace to remain. -/
def jloads (s : String) : Option JValue :=
  match parseValue (s.data.length + 1) (skipWs s.data) with
  | some (v, rest) => if skipWs rest = [] then some v else none
  | none => none

/-- Turn the parsed `key_params_list` back into pairs: `dict(pairs)`
requires every element to be a 2-element sequence; the model additionally
requires the keys to be the strings the source's type annotations
declare. -/
def pairsOfJson : List JValue → Option (List (String × JValue))
  | [] => some []
  | .arr [.str k, v] :: rest => (pairsOfJson rest).map (fun l => (k, v) :: l)
  | _ => none

/-- `parse_key(key)`: `json.loads` then
`(key_type, key_params_list) = ...; (key_type, dict(key_params_list))`.
Any failure models the exception the Python raises on malformed keys. -/
def parse_key (key : String) : Option (String × List (String × JValue)) :=
  match jloads key with
  | some (.arr [.str key_type, .arr items]) =>
    (pairsOfJson items).map (fun l => (key_type, mkPyDict l))
  | _ => none

/-! ## Representability predicates and fuel measures -/

/-- Distinctness of a key list, as Python dict keys are distinct. -/
def strNodup : List String → Bool
  | [] => true
  | k :: rest => !rest.contains k && strNodup rest

mutual

/-- The value is the image of a Python JSON-representable object: every
mapping in it has distinct keys. -/
def IsPyB : JValue → Bool
  | .null => true
  | .bool _ => true
  | .int _ => true
  | .nan => true
  | .inf => true
  | .ninf => true
  | .str _ => true
  | .arr xs => IsPyItems xs
  | .obj kvs => strNodup (kvs.map Prod.fst) && IsPyMembers kvs

def IsPyItems : List JValue → Bool
  | [] => true
  | v :: rest => IsPyB v && IsPyItems rest

def IsPyMembers : List (String × JValue) → Bool
  | [] => true
  | kv :: rest => IsPyB kv.2 && IsPyMembers rest

end

mutual

/-- True when a non-finite number (NaN, Infinity, -Infinity) occurs in the
value.  Python round-trips Infinity under `==`, but `float('nan') !=
float('nan')`, and the spec's representability caveat excludes all
non-finite numbers. -/
def hasNonFinite : JValue → Bool
  | .null => false
  | .bool _ => false
  | .int _ => false
  | .nan => true
  | .inf => true
  | .ninf => true
  | .str _ => false
  | .arr xs => hasNonFiniteItems xs
  | .obj kvs => hasNonFiniteMembers kvs

def hasNonFiniteItems : List JValue → Bool
  | [] => false
  | v :: rest => hasNonFinite v || hasNonFiniteItems rest

def hasNonFiniteMembers : List (String × JValue) → Bool
  | [] => false
  | kv :: rest => hasNonFinite kv.2 || hasNonFiniteMembers rest

end

mutual

/-- Fuel needed by `parseValue` to parse the serialization of a value. -/
def fuelS : JValue → Nat
  | .null => 1
  | .bool _ => 1
  | .int _ => 1
  | .nan => 1
  | .inf => 1
  | .ninf => 1
  | .str _ => 1
  | .arr xs => 1 + fuelI xs
  | .obj kvs => 1 + fuelM kvs

/-- Fuel needed by `parseItems`. -/
def fuelI : List JValue → Nat
  | [] => 0
  | v :: rest => 1 + fuelS v + fuelI rest

/-- Fuel needed by `parseMembers`. -/
def fuelM : List (String × JValue) → Nat
  | [] => 0
  | kv :: rest => 1 + fuelS kv.2 + fuelM rest

end

/-- `Modelled from the spec:` the spec's `format_key` contract (§4.1), which
requires failure with `EncodingError` whenever a parameter value is not
representable — in particular a non-finite number.  (The other failure the
spec names, mutually unorderable parameter keys, requires non-string keys
and is outside the string-keyed model.)  Compared against the source's
`format_key`, which serializes non-finite numbers via json.dumps's
`allow_nan=True` default. -/
def specFormatKey (key_type : String) (key_params : List (String × JValue)) : Option String :=
  if key_params.any (fun kv => hasNonFinite kv.2) then none
  else some (format_key key_type key_params)

/-! ## Stores

Association-list model of the Redis databases.  `mget` is GET (or the
read of a sorted-set key), `mset` insert-or-overwrite, `mdel` DEL. -/

/-- Lookup by key. -/
def mget (k : String) : List (String × α) → Option α
  | [] => none
  | (k1, v) :: rest => if k1 = k then some v else mget k rest

/-- Delete a key (Redis keys are unique, so removing the first occurrence
is removing the occurrence). -/
def mdel (k : String) : List (String × α) → List (String × α)
  | [] => []
  | (k1, v1) :: rest => if k1 = k then rest else (k1, v1) :: mdel k rest

/-- A handler registered for a task type: `none` models the handler
raising an exception. -/
abbrev Handler : Type := List (String × JValue) → Option JValue

/-- The transient per-query status returned by `submit_task`. -/
structure TaskStatus where
  done : Bool
  value : Option JValue
  load : Nat
deriving Repr

/-! ## TaskManager (sampling discipline)

The input cache is a plain Redis DB: one key per pending task, written
with `SET key '1' EX input_expire`; we record the TTL it was last set
with.  `DBSIZE` is the number of keys. -/

structure SamplingState where
  inputCache : List (String × Nat)
  outputCache : List (String × String)
deriving Repr

structure TMConfig where
  input_expire : Nat
  sleep_interval : Nat
deriving Repr

namespace TaskManager

/-- `TaskManager._update_input_key`:
`self.input_cache.set(key, '1', ex=self.input_expire)`. -/
def update_input_key (cfg : TMConfig) (key : String)
    (input : List (String × Nat)) : List (String × Nat) :=
  mset key cfg.input_expire input

/-- `TaskManager.submit_task`.  `none` models a raised exception (the
output cache held a string json.loads rejects). -/
def submit_task (cfg : TMConfig) (st : SamplingState) (key_type : String)
    (key_params : List (String × JValue)) : Option (TaskStatus × SamplingState) :=
  let key := format_key key_type key_params
  match mget key st.outputCache with
  | some value_str =>
    (jloads value_str).map fun v =>
      ({done := true, value := some v, load := st.inputCache.length}, st)
  | none =>
    let input1 := update_input_key cfg key st.inputCache
    some ({done := false, value := none, load := input1.length},
          {st with inputCache := input1})

/-- One observable side effect of a processor-loop iteration, in the
order the loop performs them. -/
inductive SEffect where
  | setOutput (k v : String)
  | delInput (k : String)
  | sleep
deriving Repr

/-- The effect trace of one iteration of `TaskManager.process_tasks`,
given the key RANDOMKEY returned (`none` when the input cache is empty).
An exception anywhere in the body is caught and logged, ending the
iteration with no further effects; the loop always continues. -/
def sampleTrace (handlers : List (String × Handler)) (sampled : Option String) :
    List SEffect :=
  match sampled with
  | none => [.sleep]
  | some key =>
    match parse_key key with
    | none => []
    | some (key_type, key_params) =>
      match mget key_type handlers with
      | none => []
      | some handler =>
        match handler key_params with
        | none => []
        | some value => [.setOutput key (dumps value), .delInput key]

/-- Apply one effect to the stores. -/
def applyEffect (st : SamplingState) : SEffect → SamplingState
  | .setOutput k v => {st with outputCache := mset k v st.outputCache}
  | .delInput k => {st with inputCache := mdel k st.inputCache}
  | .sleep => st

/-- The state after one iteration of the sampling processor loop. -/
def sampleStep (handlers : List (String × Handler)) (sampled : Option String)
    (st : SamplingState) : SamplingState :=
  (sampleTrace handlers sampled).foldl applyEffect st

end TaskManager

/-! ## DistributedTaskManager (priority discipline)

The input cache DB holds one sorted set per task type (`ZADD key_type
{key: time}`); Redis deletes a sorted-set key as soon as it becomes
empty, so `DBSIZE` counts the non-empty buckets. -/

/-- The per-type sorted sets: task type ↦ (member key ↦ score). -/
abbrev Buckets : Type := List (String × List (String × Int))

structure PriorityState where
  buckets : Buckets
  outputCache : List (String × String)
  /-- The Redis server clock, `TIME` seconds, read by `_get_time`. -/
  time : Int
deriving Repr

/-- `ZADD key_type {key: score}`: create the sorted set if absent,
insert or update the member's score otherwise. -/
def zadd (key_type key : String) (score : Int) (bs : Buckets) : Buckets :=
  match mget key_type bs with
  | some mem => mset key_type (mset key score mem) bs
  | none => bs ++ [(key_type, [(key, score)])]

/-- Members of the sorted set surviving `ZREMRANGEBYSCORE key lo hi`
(the removed score range is inclusive on both ends). -/
def zremAux (lo hi : Int) (mem : List (String × Int)) : List (String × Int) :=
  mem.filter fun e => !(decide (lo ≤ e.2) && decide (e.2 ≤ hi))

/-- `ZREMRANGEBYSCORE key_type lo hi`, deleting the key when the set
becomes empty. -/
def zremrangebyscore (key_type : String) (lo hi : Int) (bs : Buckets) : Buckets :=
  match mget key_type bs with
  | none => bs
  | some mem =>
    let mem1 := zremAux lo hi mem
    if mem1 = [] then mdel key_type bs else mset key_type mem1 bs

/-- One comparison step of the maximum scan: keep whichever of the
accumulator and the new element is greater in (score, member) order. -/
def zstep (acc : Option (String × Int)) (e : String × Int) : Option (String × Int) :=
  match acc with
  | none => some e
  | some m => if m.2 < e.2 ∨ (m.2 = e.2 ∧ m.1 < e.1) then some e else some m

/-- The member a `ZPOPMAX` pops: highest score, ties broken toward the
lexicographically greatest member (sorted sets order equal scores by
member). -/
def zmax (mem : List (String × Int)) : Option (String × Int) :=
  mem.foldl zstep none

/-- Pop the maximum member out of the sorted set `mem` stored under `t`:
the member is removed, and the key is deleted when the set empties. -/
def popMem (t : String) (mem : List (String × Int)) (bs : Buckets) :
    Option (String × String × Int × Buckets) :=
  match zmax mem with
  | none => none
  | some (k, s) =>
    let mem1 := mem.filter fun e => !(e.1 == k)
    some (t, k, s, if mem1 = [] then mdel t bs else mset t mem1 bs)

/-- Pop from one key if it holds a non-empty sorted set. -/
def popBucket (t : String) (bs : Buckets) : Option (String × String × Int × Buckets) :=
  match mget t bs with
  | none => none
  | some mem => popMem t mem bs

/-- `BZPOPMAX keys`: scan the given keys in order and pop the maximum
member of the first non-empty sorted set; `none` when all are empty (the
real call then blocks, since `process_tasks` passes no timeout).  Returns
`(key_type, member, score, updated buckets)`. -/
def bzpopmax (key_types : List String) (bs : Buckets) :
    Option (String × String × Int × Buckets) :=
  match key_types with
  | [] => none
  | t :: rest =>
    match popBucket t bs with
    | none => bzpopmax rest bs
    | some r => some r

/-- The eviction pass at the top of `DistributedTaskManager.process_tasks`:
`self.input_cache.zremrangebyscore(key_type, 0, time - self.input_expire)`
for every registered task type. -/
def evictPhase (key_types : List String) (tnow expire : Int) (bs : Buckets) : Buckets :=
  key_types.foldl (fun b kt => zremrangebyscore kt 0 (tnow - expire) b) bs

/-- Total number of pending entries summed across buckets.  `Modelled from
the spec:` the Pending Store's `size()` of §4.4, which the spec uses as
`load`; the source instead queries `DBSIZE`. -/
def totalEntries (bs : Buckets) : Nat := (bs.map (fun b => b.2.length)).sum

namespace DistributedTaskManager

/-- `DistributedTaskManager._update_input_key`:
`self.input_cache.zadd(key_type, {key: self._get_time()})`. -/
def update_input_key (key_type key : String) (st : PriorityState) : Buckets :=
  zadd key_type key st.time st.buckets

/-- `DistributedTaskManager.submit_task`: the inherited `submit_task` body
with the overridden `_update_input_key`; `load` is
`self.input_cache.dbsize()`, the number of keys in the input DB. -/
def submit_task (st : PriorityState) (key_type : String)
    (key_params : List (String × JValue)) : Option (TaskStatus × PriorityState) :=
  let key := format_key key_type key_params
  match mget key st.outputCache with
  | some value_str =>
    (jloads value_str).map fun v =>
      ({done := true, value := some v, load := st.buckets.length}, st)
  | none =>
    let buckets1 := update_input_key key_type key st
    some ({done := false, value := none, load := buckets1.length},
          {st with buckets := buckets1})

/-- Outcome of releasing the cooperative-exclusion lock when leaving the
`with self.lock` block. -/
inductive LockRel where
  | ok
  /-- `LockNotOwnedError`: the lock changed owner before release. -/
  | notOwned
  /-- any other `LockError` raised by the lock machinery. -/
  | err
deriving DecidableEq, Repr

/-- Lock configuration of one iteration: `none` when no lock is
configured, otherwise whether acquisition succeeds and how release ends. -/
abbrev LockEnv : Type := Option (Bool × LockRel)

structure StepResult where
  state : PriorityState
  /-- True when an exception propagates out of `process_tasks` and
  terminates the loop: the `except LockError` clause re-raises, while
  `except LockNotOwnedError` and `except Exception` absorb. -/
  fatal : Bool
deriving Repr

/-- One iteration of `DistributedTaskManager.process_tasks`: evict stale
entries from every registered bucket, pop the next task, run its handler
and store the result — under the lock when one is configured. -/
def process_step (expire : Int) (handlers : List (String × Handler))
    (lockEnv : LockEnv) (st : PriorityState) : StepResult :=
  let key_types := handlers.map Prod.fst
  let bs1 := evictPhase key_types st.time expire st.buckets
  match bzpopmax key_types bs1 with
  | none =>
    -- `raise Exception('Failed to pop new task.')`, caught by the generic
    -- handler; the loop continues.  (With no timeout the real call blocks
    -- instead of returning nothing; this is the defensive branch.)
    {state := {st with buckets := bs1}, fatal := false}
  | some (key_type, key, _score, bs2) =>
    let st2 := {st with buckets := bs2}
    match parse_key key with
    | none => {state := st2, fatal := false}  -- decode error, caught
    | some (_, key_params) =>
      match mget key_type handlers with
      | none => {state := st2, fatal := false}  -- unreachable: popped from a registered type
      | some handler =>
        match lockEnv with
        | none =>
          match handler key_params with
          | none => {state := st2, fatal := false}  -- handler raised, caught
          | some value =>
            {state := {st2 with outputCache := mset key (dumps value) st2.outputCache},
             fatal := false}
        | some (acquired, rel) =>
          if !acquired then
            -- acquisition raised LockError: re-raised, the loop terminates
            {state := st2, fatal := true}
          else
            match handler key_params with
            | none =>
              -- handler raised inside the with-block; the lock is released
              -- while unwinding, and a LockNotOwnedError from that release
              -- supersedes the handler's exception
              match rel with
              | .ok => {state := st2, fatal := false}
              | .notOwned => {state := st2, fatal := false}
              | .err => {state := st2, fatal := true}
            | some value =>
              -- result stored inside the with-block, before release
              let st3 := {st2 with outputCache := mset key (dumps value) st2.outputCache}
              match rel with
              | .ok => {state := st3, fatal := false}
              | .notOwned => {state := st3, fatal := false}  -- warning, absorbed
              | .err => {state := st3, fatal := true}

end DistributedTaskManager

/-! ## Proof-support definitions -/

/-- Digit values of a natural number, most significant first (the numeric
shadow of `natToDigits`). -/
def digitsOfNat (n : Nat) : List Nat :=
  if _h : n < 10 then [n]
  else digitsOfNat (n / 10) ++ [n % 10]
decreasing_by omega

/-- The input does not begin with a character that could extend a numeric
literal (digit, `.`, `e`, `E`); every separator produced by `dumpChars`
satisfies this, so an integer literal followed by such input parses back
exactly. -/
def numSafe : List Char → Bool
  | [] => true
  | c :: _ => (digitVal c).isNone && !(c = '.' || c = 'e' || c = 'E')

/-- The list starts with a character that is neither JSON whitespace nor a
closing bracket; every `dumpChars` output does. -/
def goodHead : List Char → Bool
  | [] => false
  | c :: _ => !isJsonWs c && !(c = ']') && !(c = '\x7d')

/-- Strict key order on items, used to identify the two sorted item lists
of permuted parameter dicts. -/
def keyLt (a b : String × JValue) : Prop := a.1 < b.1

/-- The sorted-set order on members: by score, then lexicographically by
member string (Redis orders equal scores by member). -/
def zle (a b : String × Int) : Prop := a.2 < b.2 ∨ (a.2 = b.2 ∧ a.1 ≤ b.1)

/-- The serialization of `v` parses back to exactly `v`, for any fuel at
least `fuelS v` and any continuation that cannot extend a numeric
literal. -/
def ParseOK (v : JValue) : Prop :=
  ∀ (fuel : Nat) (rest : List Char), fuelS v ≤ fuel → numSafe rest = true →
    parseValue fuel (dumpChars v ++ rest) = some (v, rest)

/-! # Theorems

### The character codec round trip -/

theorem hexVal_hexDigitChar {d : Nat} (hd : d < 16) :
    hexVal (hexDigitChar d) = some d := by
  interval_cases d <;> rfl

theorem digitVal_hexDigitChar {d : Nat} (hd : d < 10) :
    digitVal (hexDigitChar d) = some d := by
  interval_cases d <;> rfl

theorem parseHex4_digits {n : Nat} (hn : n < 65536) (rest : List Char) :
    parseHex4 (hexDigitChar (n / 4096 % 16) :: hexDigitChar (n / 256 % 16) ::
      hexDigitChar (n / 16 % 16) :: hexDigitChar (n % 16) :: rest) = some (n, rest) := by
  have h1 : n / 4096 % 16 < 16 := Nat.mod_lt _ (by norm_num)
  have h2 : n / 256 % 16 < 16 := Nat.mod_lt _ (by norm_num)
  have h3 : n / 16 % 16 < 16 := Nat.mod_lt _ (by norm_num)
  have h4 : n % 16 < 16 := Nat.mod_lt _ (by norm_num)
  simp [parseHex4, hexVal_hexDigitChar h1, hexVal_hexDigitChar h2,
    hexVal_hexDigitChar h3, hexVal_hexDigitChar h4]
  omega

/-- Valid Unicode scalar values avoid the surrogate block. -/
theorem char_valid_ranges (c : Char) :
    c.toNat < 55296 ∨ (57343 < c.toNat ∧ c.toNat < 1114112) := c.valid

/-- A surrogate-pair escape decodes to the astral character it encodes. -/
theorem scanString_surrogates (fuel : Nat) (tl : List Char) (a b : Nat)
    (ha1 : 55296 ≤ a) (ha2 : a < 56320) (hb1 : 56320 ≤ b) (hb2 : b < 57344) :
    scanString (fuel + 1) (uEscape a ++ (uEscape b ++ tl)) =
      (scanString fuel tl).map
        (fun p => (Char.ofNat (65536 + (a - 55296) * 1024 + (b - 56320)) :: p.1, p.2)) := by
  have ha : a < 65536 := by omega
  have hb : b < 65536 := by omega
  simp only [uEscape, List.cons_append]
  simp [scanString, parseHex4_digits ha, parseHex4_digits hb, ha1, ha2, hb1, hb2]

/-- Decoding one encoded character steps `scanString` by exactly one fuel
unit and produces exactly that character. -/
theorem scanString_encodeChar (c : Char) (tl : List Char) (fuel : Nat) :
    scanString (fuel + 1) (encodeChar c ++ tl) =
      (scanString fuel tl).map (fun p => (c :: p.1, p.2)) := by
  have hval := char_valid_ranges c
  by_cases hq : c = '"'
  · subst hq; rfl
  by_cases hb : c = '\\'
  · subst hb; rfl
  by_cases h8 : c = Char.ofNat 8
  · subst h8; rfl
  by_cases h9 : c = Char.ofNat 9
  · subst h9; rfl
  by_cases h10 : c = Char.ofNat 10
  · subst h10; rfl
  by_cases h12 : c = Char.ofNat 12
  · subst h12; rfl
  by_cases h13 : c = Char.ofNat 13
  · subst h13; rfl
  by_cases hp : 32 ≤ c.toNat ∧ c.toNat ≤ 126
  · have he : encodeChar c = [c] := by
      unfold encodeChar
      rw [if_neg hq, if_neg hb, if_neg h8, if_neg h9, if_neg h10, if_neg h12, if_neg h13,
        if_pos hp]
    have hc32 : ¬ c.toNat < 32 := by omega
    rw [he]
    simp [scanString, hq, hb, hc32]
  by_cases hlt : c.toNat < 65536
  · have he : encodeChar c = uEscape c.toNat := by
      unfold encodeChar
      rw [if_neg hq, if_neg hb, if_neg h8, if_neg h9, if_neg h10, if_neg h12, if_neg h13,
        if_neg hp, if_pos hlt]
    have hs1 : ¬ (55296 ≤ c.toNat ∧ c.toNat < 56320) := by omega
    have hs2 : ¬ (56320 ≤ c.toNat ∧ c.toNat < 57344) := by omega
    rw [he]
    simp only [uEscape, List.cons_append]
    simp [scanString, parseHex4_digits hlt, hs1, hs2, Char.ofNat_toNat]
  · have he : encodeChar c =
        uEscape (55296 + (c.toNat - 65536) / 1024) ++
          uEscape (56320 + (c.toNat - 65536) % 1024) := by
      unfold encodeChar
      rw [if_neg hq, if_neg hb, if_neg h8, if_neg h9, if_neg h10, if_neg h12, if_neg h13,
        if_neg hp, if_neg hlt]
    have hmod : (c.toNat - 65536) % 1024 < 1024 :=
      Nat.mod_lt _ (by norm_num)
    have hchar : Char.ofNat (65536 + (55296 + (c.toNat - 65536) / 1024 - 55296) * 1024 +
        (56320 + (c.toNat - 65536) % 1024 - 56320)) = c := by
      have harith : 65536 + (55296 + (c.toNat - 65536) / 1024 - 55296) * 1024 +
          (56320 + (c.toNat - 65536) % 1024 - 56320) = c.toNat := by omega
      rw [harith, Char.ofNat_toNat]
    rw [he, List.append_assoc,
      scanString_surrogates fuel tl _ _ (by omega) (by omega) (by omega) (by omega)]
    simp only [hchar]

/-- Scanning the encoded body of a string consumes it and the closing
quote, producing exactly the original characters. -/
theorem scanString_encode (l : List Char) :
    ∀ (tl : List Char) (fuel : Nat), l.length < fuel →
      scanString fuel ((l.map encodeChar).flatten ++ '"' :: tl) = some (l, tl) := by
  induction l with
  | nil =>
    intro tl fuel hf
    match fuel, hf with
    | fuel + 1, _ => rfl
  | cons c l ih =>
    intro tl fuel hf
    match fuel, hf with
    | fuel + 1, hf =>
      simp only [List.map_cons, List.flatten_cons, List.append_assoc]
      rw [scanString_encodeChar, ih tl fuel (by simpa using Nat.lt_of_succ_lt_succ hf)]
      rfl

/-- Every character encodes to at least one character. -/
theorem encodeChar_length_pos (c : Char) : 0 < (encodeChar c).length := by
  unfold encodeChar
  split_ifs <;> simp [uEscape]

/-- The encoded body is at least as long as the string. -/
theorem length_le_encoded (l : List Char) :
    l.length ≤ ((l.map encodeChar).flatten).length := by
  induction l with
  | nil => simp
  | cons c l ih =>
    simp only [List.map_cons, List.flatten_cons, List.length_append, List.length_cons]
    have := encodeChar_length_pos c
    omega

/-! ### The numeric literal round trip -/

theorem digitsOfNat_ne_nil (n : Nat) : digitsOfNat n ≠ [] := by
  rw [digitsOfNat]
  split
  · simp
  · simp

theorem hexDigitChar_toNat {d : Nat} (hd : d < 10) : (hexDigitChar d).toNat = 48 + d := by
  interval_cases d <;> rfl

/-- A decimal digit character differs from any character outside the digit
code-point range. -/
theorem digit_char_ne {d : Nat} (hd : d < 10) (c : Char)
    (hc : c.toNat < 48 ∨ 57 < c.toNat) : hexDigitChar d ≠ c := by
  intro he
  have h1 := hexDigitChar_toNat hd
  rw [he] at h1
  omega

theorem digit_not_ws {d : Nat} (hd : d < 10) : isJsonWs (hexDigitChar d) = false := by
  interval_cases d <;> rfl

theorem digitsOfNat_foldl (n : Nat) : ∀ a : Nat,
    (digitsOfNat n).foldl (fun a d => a * 10 + d) a =
      a * 10 ^ (digitsOfNat n).length + n := by
  intro a
  by_cases h : n < 10
  · rw [digitsOfNat]
    simp [h]
  · rw [digitsOfNat]
    simp only [h, dite_false]
    rw [List.foldl_append, digitsOfNat_foldl (n / 10) a]
    simp only [List.foldl_cons, List.foldl_nil, List.length_append, List.length_cons,
      List.length_nil, Nat.zero_add, pow_succ]
    have hmod : n / 10 * 10 + n % 10 = n := by omega
    calc (a * 10 ^ (digitsOfNat (n / 10)).length + n / 10) * 10 + n % 10
        = a * (10 ^ (digitsOfNat (n / 10)).length * 10) + (n / 10 * 10 + n % 10) := by ring
      _ = a * (10 ^ (digitsOfNat (n / 10)).length * 10) + n := by rw [hmod]
termination_by n
decreasing_by omega

theorem takeDigits_natToDigits (n : Nat) : ∀ rest : List Char,
    takeDigits (natToDigits n ++ rest) =
      (digitsOfNat n ++ (takeDigits rest).1, (takeDigits rest).2) := by
  intro rest
  by_cases h : n < 10
  · rw [natToDigits, digitsOfNat]
    simp only [h, dite_true, List.cons_append, List.nil_append]
    simp [takeDigits, digitVal_hexDigitChar h]
  · rw [natToDigits, digitsOfNat]
    simp only [h, dite_false]
    rw [List.append_assoc, List.cons_append, List.nil_append,
      takeDigits_natToDigits (n / 10) (hexDigitChar (n % 10) :: rest)]
    have hm : n % 10 < 10 := Nat.mod_lt _ (by omega)
    simp [takeDigits, digitVal_hexDigitChar hm]
termination_by n
decreasing_by omega

theorem digitsOfNat_head_ne_zero (n : Nat) (hn : 1 ≤ n) :
    ∀ d ds, digitsOfNat n = d :: ds → d ≠ 0 := by
  intro d ds hd
  by_cases h : n < 10
  · rw [digitsOfNat] at hd
    simp only [h, dite_true] at hd
    cases hd
    omega
  · rw [digitsOfNat] at hd
    simp only [h, dite_false] at hd
    cases h1 : digitsOfNat (n / 10) with
    | nil => exact absurd h1 (digitsOfNat_ne_nil _)
    | cons d1 ds1 =>
      rw [h1] at hd
      simp only [List.cons_append, List.cons.injEq] at hd
      rw [← hd.1]
      exact digitsOfNat_head_ne_zero (n / 10) (by omega) d1 ds1 h1
termination_by n
decreasing_by omega

/-- A multi-digit number is at least 10. -/
theorem digitsOfNat_long (n : Nat) (d : Nat) (ds : List Nat)
    (hd : digitsOfNat n = d :: ds) (hds : ds ≠ []) : ¬ n < 10 := by
  intro h
  rw [digitsOfNat] at hd
  simp only [h, dite_true] at hd
  cases hd
  exact hds rfl

theorem numSafe_takeDigits {rest : List Char} (h : numSafe rest = true) :
    takeDigits rest = ([], rest) := by
  cases rest with
  | nil => rfl
  | cons c rs =>
    simp only [numSafe, Bool.and_eq_true, Option.isNone_iff_eq_none] at h
    simp [takeDigits, h.1]

theorem numSafe_not_floaty {rest : List Char} (h : numSafe rest = true) :
    nextIsFloaty rest = false := by
  cases rest with
  | nil => rfl
  | cons c rs =>
    simp only [numSafe, Bool.and_eq_true] at h
    simpa [nextIsFloaty] using h.2

theorem parseNat_natToDigits (n : Nat) (rest : List Char) (h : numSafe rest = true) :
    parseNat (natToDigits n ++ rest) = some (n, rest) := by
  unfold parseNat
  rw [takeDigits_natToDigits, numSafe_takeDigits h]
  cases hds : digitsOfNat n with
  | nil => exact absurd hds (digitsOfNat_ne_nil n)
  | cons d ds =>
    simp only [List.append_nil]
    have hnz : ¬ (d = 0 ∧ ds ≠ []) := by
      rintro ⟨hz, hne⟩
      have h10 := digitsOfNat_long n d ds hds hne
      exact digitsOfNat_head_ne_zero n (by omega) d ds hds hz
    rw [if_neg hnz]
    have hfold := digitsOfNat_foldl n 0
    rw [hds] at hfold
    simp only [Nat.zero_mul, Nat.zero_add] at hfold
    simp [digitsToNat, hfold]

theorem natToDigits_head_digit (n : Nat) :
    ∃ d l, natToDigits n = hexDigitChar d :: l ∧ d < 10 := by
  by_cases h : n < 10
  · exact ⟨n, [], by rw [natToDigits]; simp [h], h⟩
  · obtain ⟨d, l, h1, h2⟩ := natToDigits_head_digit (n / 10)
    refine ⟨d, l ++ [hexDigitChar (n % 10)], ?_, h2⟩
    rw [natToDigits]
    simp [h, h1]
termination_by n
decreasing_by omega

theorem parseIntTok_intToChars (n : Int) (rest : List Char) (h : numSafe rest = true) :
    parseIntTok (intToChars n ++ rest) = some (n, rest) := by
  by_cases hneg : n < 0
  · unfold intToChars
    rw [if_pos hneg]
    unfold parseIntTok
    simp only [List.cons_append, List.head?_cons, Option.some.injEq, if_pos rfl,
      List.tail_cons]
    rw [parseNat_natToDigits n.natAbs rest h]
    simp only [Option.bind_eq_bind, Option.some_bind, numSafe_not_floaty h,
      Bool.false_eq_true, if_false]
    have : -(n.natAbs : Int) = n := by omega
    rw [this]
    simp
  · unfold intToChars
    rw [if_neg hneg]
    obtain ⟨d, l, h1, h2⟩ := natToDigits_head_digit n.natAbs
    unfold parseIntTok
    have hne : ¬ ((natToDigits n.natAbs ++ rest).head? = some '-') := by
      rw [h1]
      simp only [List.cons_append, List.head?_cons, Option.some.injEq]
      exact digit_char_ne h2 '-' (by decide)
    rw [if_neg hne]
    rw [parseNat_natToDigits n.natAbs rest h]
    simp only [Option.bind_eq_bind, Option.some_bind, numSafe_not_floaty h,
      Bool.false_eq_true, if_false]
    have : ((n.natAbs : Nat) : Int) = n := by omega
    rw [this]

/-! ### Heads of serialized values, whitespace, dict helpers -/

theorem skipWs_cons_of_not_ws {c : Char} {rest : List Char} (h : isJsonWs c = false) :
    skipWs (c :: rest) = c :: rest := by
  simp [skipWs, h]

theorem goodHead_append {l r : List Char} (h : goodHead l = true) :
    goodHead (l ++ r) = true := by
  cases l with
  | nil => cases h
  | cons c t => simpa [goodHead] using h

theorem skipWs_of_goodHead {cs : List Char} (h : goodHead cs = true) : skipWs cs = cs := by
  cases cs with
  | nil => cases h
  | cons c t =>
    simp only [goodHead, Bool.and_eq_true, Bool.not_eq_true'] at h
    exact skipWs_cons_of_not_ws h.1.1

theorem goodHead_head_ne {c : Char} {t : List Char} (h : goodHead (c :: t) = true) :
    isJsonWs c = false ∧ c ≠ ']' ∧ c ≠ '\x7d' := by
  simp only [goodHead, Bool.and_eq_true, Bool.not_eq_true'] at h
  refine ⟨h.1.1, ?_, ?_⟩
  · simpa using h.1.2
  · simpa using h.2

/-- Every serialized value has a good head character (the serialization is
non-empty and starts with neither whitespace nor a closing bracket). -/
theorem dumpChars_goodHead (v : JValue) : goodHead (dumpChars v) = true := by
  cases v with
  | null => rfl
  | bool b => cases b <;> rfl
  | int n =>
    show goodHead (intToChars n) = true
    unfold intToChars
    by_cases hneg : n < 0
    · rw [if_pos hneg]; rfl
    · rw [if_neg hneg]
      obtain ⟨d, l, h1, h2⟩ := natToDigits_head_digit n.natAbs
      rw [h1]
      simp [goodHead, digit_not_ws h2, digit_char_ne h2 ']' (by decide),
        digit_char_ne h2 '\x7d' (by decide)]
  | nan => rfl
  | inf => rfl
  | ninf => rfl
  | str s => rfl
  | arr xs => rfl
  | obj kvs => rfl

/-- Structural induction over `JValue` with membership hypotheses for the
values nested in arrays and objects. -/
theorem JValue.recMem {motive : JValue → Prop}
    (hnull : motive .null) (hbool : ∀ b, motive (.bool b)) (hint : ∀ n, motive (.int n))
    (hnan : motive .nan) (hinf : motive .inf) (hninf : motive .ninf)
    (hstr : ∀ s, motive (.str s))
    (harr : ∀ xs, (∀ v ∈ xs, motive v) → motive (.arr xs))
    (hobj : ∀ kvs, (∀ kv ∈ kvs, motive kv.2) → motive (.obj kvs)) :
    ∀ v, motive v
  | .null => hnull
  | .bool b => hbool b
  | .int n => hint n
  | .nan => hnan
  | .inf => hinf
  | .ninf => hninf
  | .str s => hstr s
  | .arr xs =>
    harr xs (fun v hv =>
      JValue.recMem hnull hbool hint hnan hinf hninf hstr harr hobj v)
  | .obj kvs =>
    hobj kvs (fun kv hkv =>
      JValue.recMem hnull hbool hint hnan hinf hninf hstr harr hobj kv.2)
termination_by v => sizeOf v
decreasing_by
  · have := List.sizeOf_lt_of_mem hv
    simp only [JValue.arr.sizeOf_spec]
    omega
  · have h1 := List.sizeOf_lt_of_mem hkv
    have h2 : sizeOf kv.2 < sizeOf kv := by
      cases kv
      simp only [Prod.mk.sizeOf_spec]
      omega
    simp only [JValue.obj.sizeOf_spec]
    omega

theorem IsPyItems_iff {xs : List JValue} :
    IsPyItems xs = true ↔ ∀ v ∈ xs, IsPyB v = true := by
  induction xs with
  | nil => simp [IsPyItems]
  | cons v l ih => simp [IsPyItems, Bool.and_eq_true, ih]

theorem IsPyMembers_iff {kvs : List (String × JValue)} :
    IsPyMembers kvs = true ↔ ∀ kv ∈ kvs, IsPyB kv.2 = true := by
  induction kvs with
  | nil => simp [IsPyMembers]
  | cons kv l ih => simp [IsPyMembers, Bool.and_eq_true, ih]

theorem strNodup_iff {l : List String} : strNodup l = true ↔ l.Nodup := by
  induction l with
  | nil => simp [strNodup]
  | cons k rest ih =>
    simp only [strNodup, Bool.and_eq_true, Bool.not_eq_true', List.nodup_cons, ih]
    constructor
    · rintro ⟨h1, h2⟩
      refine ⟨fun hm => ?_, h2⟩
      have hc := List.elem_iff.mpr hm
      have h1e : List.elem k rest = false := h1
      rw [h1e] at hc
      cases hc
    · rintro ⟨h1, h2⟩
      refine ⟨?_, h2⟩
      cases hcon : rest.contains k
      · rfl
      · exact absurd (List.elem_iff.mp hcon) h1

theorem mset_of_absent {α : Type} (k : String) (v : α) (acc : List (String × α))
    (h : ∀ kv ∈ acc, kv.1 ≠ k) : mset k v acc = acc ++ [(k, v)] := by
  induction acc with
  | nil => rfl
  | cons kv rest ih =>
    have hne : kv.1 ≠ k := h kv (by simp)
    simp only [mset, if_neg hne, List.cons_append, List.cons.injEq, true_and]
    exact ih (fun kv1 h1 => h kv1 (by simp [h1]))

theorem foldl_mset_of_nodup (l : List (String × JValue)) :
    ∀ acc : List (String × JValue), strNodup (l.map Prod.fst) = true →
      (∀ k ∈ l.map Prod.fst, ∀ kv ∈ acc, kv.1 ≠ k) →
      l.foldl (fun d kv => mset kv.1 kv.2 d) acc = acc ++ l := by
  induction l with
  | nil => intro acc _ _; simp
  | cons e rest ih =>
    intro acc hnd hdis
    simp only [List.foldl_cons]
    rw [mset_of_absent e.1 e.2 acc (hdis e.1 (by simp))]
    rw [ih (acc ++ [e]) ?hnd ?hdis]
    · simp
    case hnd =>
      simp only [List.map_cons, strNodup, Bool.and_eq_true] at hnd
      exact hnd.2
    case hdis =>
      intro k1 hk1 kv1 hkv1
      rcases List.mem_append.mp hkv1 with hin | hin
      · exact hdis k1 (by simp [hk1]) kv1 hin
      · have heq : kv1 = e := by simpa using hin
        subst heq
        intro he
        simp only [List.map_cons, strNodup, Bool.and_eq_true, Bool.not_eq_true'] at hnd
        have hc := List.elem_iff.mpr hk1
        rw [← he] at hc
        have hnd1 : List.elem kv1.1 (rest.map Prod.fst) = false := hnd.1
        rw [hnd1] at hc
        cases hc

/-- `dict(pairs)` is the identity on pair lists with distinct keys. -/
theorem mkPyDict_eq_self (l : List (String × JValue))
    (h : strNodup (l.map Prod.fst) = true) : mkPyDict l = l := by
  unfold mkPyDict
  rw [foldl_mset_of_nodup l [] h (by intro k _ kv hkv; cases hkv)]
  simp

theorem stringMk_data (s : String) : String.mk s.data = s := by
  cases s
  rfl

theorem stripPre_none_of_head_ne {p : Char} {ps : List Char} {c : Char} {cs : List Char}
    (h : c ≠ p) : stripPre (p :: ps) (c :: cs) = none := by
  simp [stripPre, h]

/-! ### The parser inverts the serializer: arrays and objects -/

theorem numSafe_rbrack (rest : List Char) : numSafe (']' :: rest) = true := rfl

theorem numSafe_comma (rest : List Char) : numSafe (',' :: rest) = true := rfl

theorem numSafe_rbrace (rest : List Char) : numSafe ('\x7d' :: rest) = true := rfl

theorem skipWs_comma (l : List Char) : skipWs (',' :: l) = ',' :: l := rfl

theorem skipWs_colon (l : List Char) : skipWs (':' :: l) = ':' :: l := rfl

theorem skipWs_rbrack (l : List Char) : skipWs (']' :: l) = ']' :: l := rfl

theorem skipWs_rbrace (l : List Char) : skipWs ('\x7d' :: l) = '\x7d' :: l := rfl

theorem skipWs_space (l : List Char) : skipWs (' ' :: l) = skipWs l := rfl

theorem dumpItems_goodHead (y : JValue) (t : List JValue) :
    goodHead (dumpItems (y :: t)) = true := by
  cases t with
  | nil => exact dumpChars_goodHead y
  | cons z t2 =>
    simp only [dumpItems]
    exact goodHead_append (dumpChars_goodHead y)

theorem dumpMembers_goodHead (kv : String × JValue) (t : List (String × JValue)) :
    goodHead (dumpMembers (kv :: t)) = true := by
  obtain ⟨k, v⟩ := kv
  cases t with
  | nil =>
    simp only [dumpMembers, encodeString, List.cons_append]
    rfl
  | cons kv2 t2 =>
    simp only [dumpMembers, encodeString, List.cons_append]
    rfl

theorem parseItems_dump (xs : List JValue) (hok : ∀ v ∈ xs, ParseOK v) :
    xs ≠ [] → ∀ (fuel : Nat) (rest : List Char), fuelI xs ≤ fuel →
      parseItems fuel (dumpItems xs ++ ']' :: rest) = some (xs, rest) := by
  induction xs with
  | nil => intro hne; cases hne rfl
  | cons x t ih =>
    intro _ fuel rest hfuel
    have hfx : 1 + fuelS x + fuelI t ≤ fuel := by simpa [fuelI] using hfuel
    obtain ⟨f, rfl⟩ : ∃ f, fuel = f + 1 := ⟨fuel - 1, by omega⟩
    cases t with
    | nil =>
      show parseItems (f + 1) (dumpChars x ++ ']' :: rest) = some ([x], rest)
      simp only [parseItems]
      rw [hok x (by simp) f (']' :: rest) (by simp [fuelI] at hfx; omega) (numSafe_rbrack rest)]
      simp only [skipWs_rbrack]
    | cons y t2 =>
      show parseItems (f + 1)
          ((dumpChars x ++ ',' :: ' ' :: dumpItems (y :: t2)) ++ ']' :: rest) =
          some (x :: y :: t2, rest)
      simp only [List.append_assoc, List.cons_append]
      simp only [parseItems]
      rw [hok x (by simp) f (',' :: ' ' :: (dumpItems (y :: t2) ++ ']' :: rest))
        (by simp [fuelI] at hfx ⊢; omega) (numSafe_comma _)]
      have hskip : skipWs (dumpItems (y :: t2) ++ ']' :: rest) =
          dumpItems (y :: t2) ++ ']' :: rest :=
        skipWs_of_goodHead (goodHead_append (dumpItems_goodHead y t2))
      simp only [skipWs_comma, skipWs_space, hskip]
      rw [ih (fun v hv => hok v (by simp [hv])) (by simp) f rest (by simp [fuelI] at hfx ⊢; omega)]
      rfl

theorem parseMembers_dump (kvs : List (String × JValue)) (hok : ∀ kv ∈ kvs, ParseOK kv.2) :
    kvs ≠ [] → ∀ (fuel : Nat) (rest : List Char), fuelM kvs ≤ fuel →
      parseMembers fuel (dumpMembers kvs ++ '\x7d' :: rest) = some (kvs, rest) := by
  induction kvs with
  | nil => intro hne; cases hne rfl
  | cons kv t ih =>
    obtain ⟨k, v⟩ := kv
    intro _ fuel rest hfuel
    have hfx : 1 + fuelS v + fuelM t ≤ fuel := by simpa [fuelM] using hfuel
    obtain ⟨f, rfl⟩ : ∃ f, fuel = f + 1 := ⟨fuel - 1, by omega⟩
    cases t with
    | nil =>
      show parseMembers (f + 1)
          ((encodeString k ++ ':' :: ' ' :: dumpChars v) ++ '\x7d' :: rest) =
          some ([(k, v)], rest)
      simp only [encodeString, List.append_assoc, List.cons_append, List.nil_append]
      simp only [parseMembers]
      rw [scanString_encode k.data (':' :: ' ' :: (dumpChars v ++ '\x7d' :: rest)) _ (by
        have := length_le_encoded k.data
        simp only [List.length_append, List.length_cons]
        omega)]
      have hskip : skipWs (dumpChars v ++ '\x7d' :: rest) = dumpChars v ++ '\x7d' :: rest :=
        skipWs_of_goodHead (goodHead_append (dumpChars_goodHead v))
      simp only [skipWs_colon, skipWs_space, hskip]
      rw [hok (k, v) (by simp) f ('\x7d' :: rest) (by simp [fuelM] at hfx ⊢; omega)
        (numSafe_rbrace rest)]
      simp only [skipWs_rbrace, stringMk_data]
    | cons kv2 t2 =>
      show parseMembers (f + 1)
          (((encodeString k ++ ':' :: ' ' :: dumpChars v) ++ ',' :: ' ' :: dumpMembers (kv2 :: t2))
            ++ '\x7d' :: rest) = some ((k, v) :: kv2 :: t2, rest)
      simp only [encodeString, List.append_assoc, List.cons_append, List.nil_append]
      simp only [parseMembers]
      rw [scanString_encode k.data
        (':' :: ' ' :: (dumpChars v ++ ',' :: ' ' :: (dumpMembers (kv2 :: t2) ++ '\x7d' :: rest)))
        _ (by
          have := length_le_encoded k.data
          simp only [List.length_append, List.length_cons]
          omega)]
      have hskip1 : skipWs ((dumpChars v ++ ',' :: ' ' :: (dumpMembers (kv2 :: t2) ++ '\x7d' :: rest))) =
          dumpChars v ++ ',' :: ' ' :: (dumpMembers (kv2 :: t2) ++ '\x7d' :: rest) :=
        skipWs_of_goodHead (goodHead_append (dumpChars_goodHead v))
      simp only [skipWs_colon, skipWs_space, hskip1]
      rw [hok (k, v) (by simp) f (',' :: ' ' :: (dumpMembers (kv2 :: t2) ++ '\x7d' :: rest))
        (by simp [fuelM] at hfx ⊢; omega) (numSafe_comma _)]
      have hskip2 : skipWs (dumpMembers (kv2 :: t2) ++ '\x7d' :: rest) =
          dumpMembers (kv2 :: t2) ++ '\x7d' :: rest :=
        skipWs_of_goodHead (goodHead_append (dumpMembers_goodHead kv2 t2))
      simp only [skipWs_comma, skipWs_space, hskip2]
      rw [ih (fun e he => hok e (by simp [he])) (by simp) f rest
        (by simp [fuelM] at hfx ⊢; omega)]
      simp only [stringMk_data]
      rfl

/-! ### The parser inverts the serializer: all values -/

/-- Master round-trip lemma: the serialization of any value whose mappings
have distinct keys parses back to exactly that value. -/
theorem parseOK_all : ∀ v : JValue, IsPyB v = true → ParseOK v := by
  intro v
  induction v using JValue.recMem with
  | hnull =>
    intro _ fuel rest hfuel hsafe
    obtain ⟨f, rfl⟩ : ∃ f, fuel = f + 1 := ⟨fuel - 1, by simp [fuelS] at hfuel; omega⟩
    simp only [dumpChars, List.cons_append, List.nil_append]
    rfl
  | hbool b =>
    intro _ fuel rest hfuel hsafe
    obtain ⟨f, rfl⟩ : ∃ f, fuel = f + 1 := ⟨fuel - 1, by simp [fuelS] at hfuel; omega⟩
    cases b <;>
      simp only [dumpChars, List.cons_append, List.nil_append] <;> rfl
  | hnan =>
    intro _ fuel rest hfuel hsafe
    obtain ⟨f, rfl⟩ : ∃ f, fuel = f + 1 := ⟨fuel - 1, by simp [fuelS] at hfuel; omega⟩
    simp only [dumpChars, List.cons_append, List.nil_append]
    rfl
  | hinf =>
    intro _ fuel rest hfuel hsafe
    obtain ⟨f, rfl⟩ : ∃ f, fuel = f + 1 := ⟨fuel - 1, by simp [fuelS] at hfuel; omega⟩
    simp only [dumpChars, List.cons_append, List.nil_append]
    rfl
  | hninf =>
    intro _ fuel rest hfuel hsafe
    obtain ⟨f, rfl⟩ : ∃ f, fuel = f + 1 := ⟨fuel - 1, by simp [fuelS] at hfuel; omega⟩
    simp only [dumpChars, List.cons_append, List.nil_append]
    rfl
  | hint n =>
    intro _ fuel rest hfuel hsafe
    obtain ⟨f, rfl⟩ : ∃ f, fuel = f + 1 := ⟨fuel - 1, by simp [fuelS] at hfuel; omega⟩
    obtain ⟨d, l, h1, h2⟩ := natToDigits_head_digit n.natAbs
    have hq := digit_char_ne h2 '"' (by decide)
    have hbr := digit_char_ne h2 '\x7b' (by decide)
    have hbk := digit_char_ne h2 '[' (by decide)
    have hn := digit_char_ne h2 'n' (by decide)
    have ht := digit_char_ne h2 't' (by decide)
    have hf := digit_char_ne h2 'f' (by decide)
    have hN := digit_char_ne h2 'N' (by decide)
    have hI := digit_char_ne h2 'I' (by decide)
    have hm := digit_char_ne h2 '-' (by decide)
    have m1 : ('-' : Char) ≠ '"' := by decide
    have m2 : ('-' : Char) ≠ '\x7b' := by decide
    have m3 : ('-' : Char) ≠ '[' := by decide
    have m4 : ('-' : Char) ≠ 'n' := by decide
    have m5 : ('-' : Char) ≠ 't' := by decide
    have m6 : ('-' : Char) ≠ 'f' := by decide
    have m7 : ('-' : Char) ≠ 'N' := by decide
    have m8 : ('-' : Char) ≠ 'I' := by decide
    by_cases hneg : n < 0
    · have hi : intToChars n = '-' :: natToDigits n.natAbs := if_pos hneg
      show parseValue (f + 1) (intToChars n ++ rest) = some (.int n, rest)
      rw [hi, List.cons_append, h1, List.cons_append]
      simp only [parseValue, stripPre, hq, hbr, hbk, hn, ht, hf, hN, hI, hm,
        m1, m2, m3, m4, m5, m6, m7, m8, reduceIte]
      rw [← List.cons_append, ← List.cons_append, ← h1, ← hi,
        parseIntTok_intToChars n rest hsafe]
      rfl
    · have hi : intToChars n = natToDigits n.natAbs := if_neg hneg
      show parseValue (f + 1) (intToChars n ++ rest) = some (.int n, rest)
      rw [hi, h1, List.cons_append]
      simp only [parseValue, stripPre, hq, hbr, hbk, hn, ht, hf, hN, hI, hm, reduceIte]
      rw [← List.cons_append, ← h1, ← hi, parseIntTok_intToChars n rest hsafe]
      rfl
  | hstr s =>
    intro _ fuel rest hfuel hsafe
    obtain ⟨f, rfl⟩ : ∃ f, fuel = f + 1 := ⟨fuel - 1, by simp [fuelS] at hfuel; omega⟩
    show parseValue (f + 1) (encodeString s ++ rest) = some (.str s, rest)
    simp only [encodeString, List.cons_append, List.append_assoc, List.nil_append]
    simp only [parseValue, reduceIte]
    rw [scanString_encode s.data rest _ (by
      have := length_le_encoded s.data
      simp only [List.length_append, List.length_cons]
      omega)]
    simp [stringMk_data]
  | harr xs ihm =>
    intro hpy fuel rest hfuel hsafe
    obtain ⟨f, rfl⟩ : ∃ f, fuel = f + 1 := ⟨fuel - 1, by simp [fuelS] at hfuel; omega⟩
    have hitems : ∀ u ∈ xs, ParseOK u := fun u hu =>
      ihm u hu (IsPyItems_iff.mp (by simpa [IsPyB] using hpy) u hu)
    show parseValue (f + 1) (dumpChars (.arr xs) ++ rest) = some (.arr xs, rest)
    simp only [dumpChars, List.cons_append, List.append_assoc, List.nil_append]
    have b1 : ('[' : Char) ≠ '"' := by decide
    have b2 : ('[' : Char) ≠ '\x7b' := by decide
    cases xs with
    | nil =>
      simp only [dumpItems, List.nil_append]
      simp only [parseValue, skipWs_rbrack, b1, b2, eq_self_iff_true, reduceIte]
    | cons x t =>
      simp only [parseValue, b1, b2, eq_self_iff_true, reduceIte]
      rw [skipWs_of_goodHead (goodHead_append (dumpItems_goodHead x t))]
      obtain ⟨c, l, hc⟩ : ∃ c l, dumpItems (x :: t) = c :: l := by
        cases hd : dumpItems (x :: t) with
        | nil => exact absurd (dumpItems_goodHead x t) (by rw [hd]; decide)
        | cons c l => exact ⟨c, l, rfl⟩
      have hcne : c ≠ ']' := by
        have := dumpItems_goodHead x t
        rw [hc] at this
        exact (goodHead_head_ne this).2.1
      split
      · rename_i rest1 heq
        rw [hc, List.cons_append] at heq
        cases heq
        exact absurd rfl hcne
      · rw [parseItems_dump (x :: t) hitems (by simp) f rest
          (by simp [fuelS, fuelI] at hfuel ⊢; omega)]
        rfl
  | hobj kvs ihm =>
    intro hpy fuel rest hfuel hsafe
    obtain ⟨f, rfl⟩ : ∃ f, fuel = f + 1 := ⟨fuel - 1, by simp [fuelS] at hfuel; omega⟩
    have hpy2 : strNodup (kvs.map Prod.fst) = true ∧ IsPyMembers kvs = true := by
      simpa [IsPyB, Bool.and_eq_true] using hpy
    have hmem : ∀ kv ∈ kvs, ParseOK kv.2 := fun kv hkv =>
      ihm kv hkv (IsPyMembers_iff.mp hpy2.2 kv hkv)
    show parseValue (f + 1) (dumpChars (.obj kvs) ++ rest) = some (.obj kvs, rest)
    simp only [dumpChars, List.cons_append, List.append_assoc, List.nil_append]
    have o1 : ('\x7b' : Char) ≠ '"' := by decide
    cases kvs with
    | nil =>
      simp only [dumpMembers, List.nil_append]
      simp only [parseValue, skipWs_rbrace, o1, eq_self_iff_true, reduceIte]
    | cons kv t =>
      simp only [parseValue, o1, eq_self_iff_true, reduceIte]
      rw [skipWs_of_goodHead (goodHead_append (dumpMembers_goodHead kv t))]
      obtain ⟨c, l, hc⟩ : ∃ c l, dumpMembers (kv :: t) = c :: l := by
        cases hd : dumpMembers (kv :: t) with
        | nil => exact absurd (dumpMembers_goodHead kv t) (by rw [hd]; decide)
        | cons c l => exact ⟨c, l, rfl⟩
      have hcne : c ≠ '\x7d' := by
        have := dumpMembers_goodHead kv t
        rw [hc] at this
        exact (goodHead_head_ne this).2.2
      split
      · rename_i rest1 heq
        rw [hc, List.cons_append] at heq
        cases heq
        exact absurd rfl hcne
      · rw [parseMembers_dump (kv :: t) hmem (by simp) f rest
          (by simp [fuelS, fuelM] at hfuel ⊢; omega)]
        simp [mkPyDict_eq_self (kv :: t) hpy2.1]

/-! ### Fuel bounds and the top-level round trip -/

theorem dumpChars_ne_nil (v : JValue) : dumpChars v ≠ [] := by
  intro h
  have hg := dumpChars_goodHead v
  rw [h] at hg
  cases hg

theorem fuelI_le (xs : List JValue) (h : ∀ v ∈ xs, fuelS v ≤ (dumpChars v).length) :
    fuelI xs ≤ (dumpItems xs).length + 1 := by
  match xs with
  | [] => simp [fuelI, dumpItems]
  | [v] =>
    have := h v (by simp)
    simp only [fuelI, dumpItems, List.length_nil]
    omega
  | v :: w :: t =>
    have h1 := h v (by simp)
    have h2 := fuelI_le (w :: t) (fun u hu => h u (by simp [hu]))
    simp only [fuelI, dumpItems, List.length_append, List.length_cons] at *
    omega

theorem fuelM_le (kvs : List (String × JValue))
    (h : ∀ kv ∈ kvs, fuelS kv.2 ≤ (dumpChars kv.2).length) :
    fuelM kvs ≤ (dumpMembers kvs).length + 1 := by
  match kvs with
  | [] => simp [fuelM, dumpMembers]
  | [(k, v)] =>
    have := h (k, v) (by simp)
    simp only [fuelM, dumpMembers, List.length_append, List.length_cons] at *
    omega
  | (k, v) :: kv2 :: t =>
    have h1 := h (k, v) (by simp)
    have h2 := fuelM_le (kv2 :: t) (fun u hu => h u (by simp [hu]))
    simp only [fuelM, dumpMembers, List.length_append, List.length_cons] at *
    omega

/-- The fuel needed to parse a serialization is at most its length. -/
theorem fuelS_le_length (v : JValue) : fuelS v ≤ (dumpChars v).length := by
  induction v using JValue.recMem with
  | harr xs ihm =>
    have h := fuelI_le xs (fun u hu => ihm u hu)
    simp only [fuelS, dumpChars, List.length_cons, List.length_append] at *
    omega
  | hobj kvs ihm =>
    have h := fuelM_le kvs (fun u hu => ihm u hu)
    simp only [fuelS, dumpChars, List.length_cons, List.length_append] at *
    omega
  | hint n =>
    have := List.length_pos.mpr (dumpChars_ne_nil (.int n))
    simp only [fuelS]
    omega
  | hstr s =>
    have := List.length_pos.mpr (dumpChars_ne_nil (.str s))
    simp only [fuelS]
    omega
  | hnull => simp [fuelS, dumpChars]
  | hbool b => cases b <;> simp [fuelS, dumpChars]
  | hnan => simp [fuelS, dumpChars]
  | hinf => simp [fuelS, dumpChars]
  | hninf => simp [fuelS, dumpChars]

/-- `json.loads(json.dumps(v)) == v` for every value of the model whose
mappings have distinct keys. -/
theorem jloads_dumps (v : JValue) (hpy : IsPyB v = true) : jloads (dumps v) = some v := by
  unfold jloads dumps
  have hdata : (String.mk (dumpChars v)).data = dumpChars v := rfl
  rw [hdata, skipWs_of_goodHead (dumpChars_goodHead v)]
  have hp := parseOK_all v hpy ((dumpChars v).length + 1) [] (by
    have := fuelS_le_length v
    omega) rfl
  rw [List.append_nil] at hp
  rw [hp]
  rfl

theorem pairsOfJson_map (l : List (String × JValue)) :
    pairsOfJson (l.map pairToJson) = some l := by
  induction l with
  | nil => rfl
  | cons kv t ih =>
    simp [pairsOfJson, pairToJson, ih]

/-! ### Sorting: permutation invariance of the canonical key -/

instance : IsAntisymm (String × JValue) keyLt :=
  ⟨fun a b h1 h2 => absurd (lt_trans h1 h2) (lt_irrefl _)⟩

theorem sortItems_perm (p : List (String × JValue)) : (sortItems p).Perm p :=
  List.perm_insertionSort keyLe p

theorem sortItems_nodup_keys (p : List (String × JValue))
    (h : strNodup (p.map Prod.fst) = true) :
    strNodup ((sortItems p).map Prod.fst) = true := by
  rw [strNodup_iff] at h ⊢
  exact ((sortItems_perm p).map Prod.fst).nodup_iff.mpr h

theorem sortItems_sorted_lt (p : List (String × JValue))
    (h : strNodup (p.map Prod.fst) = true) :
    List.Sorted keyLt (sortItems p) := by
  have hs : List.Sorted keyLe (sortItems p) := List.sorted_insertionSort keyLe p
  have hnd : ((sortItems p).map Prod.fst).Nodup := by
    rw [← strNodup_iff]
    exact sortItems_nodup_keys p h
  have hne : (sortItems p).Pairwise (fun a b => a.1 ≠ b.1) := List.pairwise_map.mp hnd
  exact (hs.and hne).imp (fun hab => lt_of_le_of_ne hab.1 hab.2)

/-- Two parameter dicts with the same items produce the same sorted item
list: sorting is invariant under permutation when the keys are distinct. -/
theorem sortItems_eq_of_perm (p1 p2 : List (String × JValue)) (hperm : p1.Perm p2)
    (h1 : strNodup (p1.map Prod.fst) = true) : sortItems p1 = sortItems p2 := by
  have h2 : strNodup (p2.map Prod.fst) = true := by
    rw [strNodup_iff] at h1 ⊢
    exact (hperm.map Prod.fst).nodup_iff.mp h1
  exact List.eq_of_perm_of_sorted
    (((sortItems_perm p1).trans hperm).trans (sortItems_perm p2).symm)
    (sortItems_sorted_lt p1 h1) (sortItems_sorted_lt p2 h2)

/-- The canonical key value is representable whenever the parameters are. -/
theorem keyJson_isPy (t : String) (p : List (String × JValue))
    (h1 : strNodup (p.map Prod.fst) = true) (h2 : IsPyMembers p = true) :
    IsPyB (keyJson t p) = true := by
  have hmaps : IsPyItems ((sortItems p).map pairToJson) = true := by
    rw [IsPyItems_iff]
    intro v hv
    simp only [List.mem_map] at hv
    obtain ⟨kv, hkv, rfl⟩ := hv
    have hkv2 : IsPyB kv.2 = true :=
      IsPyMembers_iff.mp h2 kv ((sortItems_perm p).subset hkv)
    simp [pairToJson, IsPyB, IsPyItems, hkv2]
  simp [keyJson, IsPyB, IsPyItems, hmaps]

/-- Parsing a formatted key recovers the task type and the sorted items
(which Python's `dict` then turns back into the parameter mapping). -/
theorem parse_key_format_key (t : String) (p : List (String × JValue))
    (h1 : strNodup (p.map Prod.fst) = true) (h2 : IsPyMembers p = true) :
    parse_key (format_key t p) = some (t, sortItems p) := by
  unfold parse_key format_key
  rw [jloads_dumps (keyJson t p) (keyJson_isPy t p h1 h2)]
  simp only [keyJson]
  simp [pairsOfJson_map, mkPyDict_eq_self (sortItems p) (sortItems_nodup_keys p h1)]

/-- **C2**: for every representable pair (string task type, string-keyed
JSON mapping without non-finite numbers and with distinct keys at every
level), `parse_key (format_key t p)` recovers `(t, p)` exactly: the parse
succeeds, returning `t` and the sorted item list of `p`, which is a
permutation of `p` (i.e. the same dict); consequently `format_key` is
injective on such pairs up to dict equality. -/
theorem parse_key_format_key_roundtrip :
    (∀ (t : String) (p : List (String × JValue)),
        strNodup (p.map Prod.fst) = true → IsPyMembers p = true →
        hasNonFiniteMembers p = false →
        parse_key (format_key t p) = some (t, sortItems p) ∧ (sortItems p).Perm p) ∧
    (∀ (t1 : String) (p1 : List (String × JValue))
        (t2 : String) (p2 : List (String × JValue)),
        strNodup (p1.map Prod.fst) = true → IsPyMembers p1 = true →
        strNodup (p2.map Prod.fst) = true → IsPyMembers p2 = true →
        format_key t1 p1 = format_key t2 p2 → t1 = t2 ∧ p1.Perm p2) := by
  constructor
  · intro t p h1 h2 _
    exact ⟨parse_key_format_key t p h1 h2, sortItems_perm p⟩
  · intro t1 p1 t2 p2 h11 h12 h21 h22 heq
    have hp := congrArg parse_key heq
    rw [parse_key_format_key t1 p1 h11 h12, parse_key_format_key t2 p2 h21 h22] at hp
    injection hp with hp
    injection hp with hpt hpl
    refine ⟨hpt, ?_⟩
    have h3 : p1.Perm (sortItems p2) := by
      rw [← hpl]
      exact (sortItems_perm p1).symm
    exact h3.trans (sortItems_perm p2)

/-- Witness for C2 at the spec's own example: a factorize task with two
parameters given in unsorted order round-trips through the codec. -/
theorem parse_key_format_key_roundtrip_witness :
    strNodup ([("number", JValue.int 360), ("alg", JValue.str "qs")].map Prod.fst) = true ∧
    IsPyMembers [("number", JValue.int 360), ("alg", JValue.str "qs")] = true ∧
    hasNonFiniteMembers [("number", JValue.int 360), ("alg", JValue.str "qs")] = false ∧
    parse_key (format_key "factorize" [("number", JValue.int 360), ("alg", JValue.str "qs")]) =
      some ("factorize", sortItems [("number", JValue.int 360), ("alg", JValue.str "qs")]) ∧
    (sortItems [("number", JValue.int 360), ("alg", JValue.str "qs")]).Perm
      [("number", JValue.int 360), ("alg", JValue.str "qs")] := by
  have h := parse_key_format_key_roundtrip.1 "factorize"
    [("number", JValue.int 360), ("alg", JValue.str "qs")] rfl rfl rfl
  exact ⟨rfl, rfl, rfl, h.1, h.2⟩

/-- **C9**: two parameter mappings with exactly the same key-value pairs
in different insertion orders (a permutation, keys distinct) produce
byte-identical keys. -/
theorem format_key_order_independent :
    ∀ (t : String) (p1 p2 : List (String × JValue)),
      strNodup (p1.map Prod.fst) = true → p1.Perm p2 →
      format_key t p1 = format_key t p2 := by
  intro t p1 p2 h1 hperm
  unfold format_key keyJson
  rw [sortItems_eq_of_perm p1 p2 hperm h1]

/-- Witness for C9: the two insertion orders of a two-parameter mapping. -/
theorem format_key_order_independent_witness :
    strNodup ([("b", JValue.int 2), ("a", JValue.int 1)].map Prod.fst) = true ∧
    ([("b", JValue.int 2), ("a", JValue.int 1)]).Perm [("a", JValue.int 1), ("b", JValue.int 2)] ∧
    format_key "t" [("b", JValue.int 2), ("a", JValue.int 1)] =
      format_key "t" [("a", JValue.int 1), ("b", JValue.int 2)] := by
  refine ⟨rfl, List.Perm.swap _ _ _, ?_⟩
  exact format_key_order_independent "t" _ _ rfl (List.Perm.swap _ _ _)

/-- **C8 counterexample**: with a NaN parameter value the source's
`format_key` does not fail — json.dumps serializes the value as the
constant `NaN` (`allow_nan` defaults to true) and returns a key string —
whereas the spec's contract (`specFormatKey`, modelled from the spec's
words) demands failure.  The produced key even parses back. -/
theorem format_key_nonfinite_counterexample :
    specFormatKey "t" [("x", JValue.nan)] = none ∧
    format_key "t" [("x", JValue.nan)] = "[\"t\", [[\"x\", NaN]]]" ∧
    jloads (format_key "t" [("x", JValue.nan)]) = some (keyJson "t" [("x", JValue.nan)]) :=
  ⟨rfl, rfl, jloads_dumps _ rfl⟩

/-- **C8 amended**: on the model's domain (string-keyed JSON params with
distinct keys) `format_key` is total — it never raises, even when
parameter values are non-finite numbers, serializing them as the
constants NaN, Infinity and -Infinity — and its output is the canonical
serialization of `[task_type, sorted(params.items())]`, which json.loads
parses back. -/
theorem format_key_total_amended :
    ∀ (t : String) (p : List (String × JValue)),
      strNodup (p.map Prod.fst) = true → IsPyMembers p = true →
      jloads (format_key t p) = some (keyJson t p) :=
  fun _ p h1 h2 => jloads_dumps _ (keyJson_isPy _ p h1 h2)

/-- Witness for the amended C8, at a parameter mapping containing NaN. -/
theorem format_key_total_amended_witness :
    strNodup ([("x", JValue.nan)].map Prod.fst) = true ∧
    IsPyMembers [("x", JValue.nan)] = true ∧
    jloads (format_key "t" [("x", JValue.nan)]) = some (keyJson "t" [("x", JValue.nan)]) :=
  ⟨rfl, rfl, format_key_total_amended "t" [("x", JValue.nan)] rfl rfl⟩

/-! ### Store lemmas -/

theorem mget_mset_self {α : Type} (k : String) (v : α) (m : List (String × α)) :
    mget k (mset k v m) = some v := by
  induction m with
  | nil => simp [mset, mget]
  | cons kv rest ih =>
    by_cases h : kv.1 = k
    · obtain ⟨k1, v1⟩ := kv
      simp_all [mset, mget]
    · obtain ⟨k1, v1⟩ := kv
      simp only at h
      simp [mset, mget, h, ih]

theorem mget_mset_ne {α : Type} (k k1 : String) (v : α) (m : List (String × α))
    (h : k1 ≠ k) : mget k1 (mset k v m) = mget k1 m := by
  have hne : k ≠ k1 := fun he => h he.symm
  induction m with
  | nil => simp [mset, mget, hne]
  | cons kv rest ih =>
    obtain ⟨k2, v2⟩ := kv
    by_cases h2 : k2 = k
    · subst h2
      simp [mset, mget, hne]
    · simp [mset, mget, h2, ih]

theorem mget_append_of_none {α : Type} {m1 : List (String × α)} (m2 : List (String × α))
    {k : String} (h : mget k m1 = none) : mget k (m1 ++ m2) = mget k m2 := by
  induction m1 with
  | nil => rfl
  | cons kv rest ih =>
    obtain ⟨k1, v1⟩ := kv
    by_cases h1 : k1 = k
    · simp [mget, h1] at h
    · simp only [mget, h1, if_false, List.cons_append] at h ⊢
      exact ih h

/-- After `ZADD key_type {key: score}` the member is present in the bucket
with exactly that score. -/
theorem zadd_member (t k : String) (s : Int) (bs : Buckets) :
    ∃ mem, mget t (zadd t k s bs) = some mem ∧ mget k mem = some s := by
  unfold zadd
  cases hb : mget t bs with
  | some mem =>
    exact ⟨mset k s mem, mget_mset_self t _ bs, mget_mset_self k s mem⟩
  | none =>
    refine ⟨[(k, s)], ?_, by simp [mget]⟩
    rw [mget_append_of_none _ hb]
    simp [mget]

/-! ### C1 and C5: the submission path -/

/-- **C1**: `submit_task` behavior in both disciplines.  When the Result
Store already holds a (parseable) value under the canonical key, the call
returns `done = true` with exactly that stored value and the state —
Pending Store and Result Store — is returned unchanged (hence repeated
calls are idempotent).  Otherwise the pending entry for the key is
inserted or refreshed — with TTL `input_expire` in the sampling
discipline, with timestamp `now` (the store clock) in the priority
discipline — the call returns `done = false, value = none`, and in all
cases `load` is the size (`DBSIZE`) of the Pending Store at query time. -/
theorem submit_task_spec :
    (∀ (cfg : TMConfig) (st : SamplingState) (t : String) (p : List (String × JValue))
        (s : String) (v : JValue),
        mget (format_key t p) st.outputCache = some s → jloads s = some v →
        TaskManager.submit_task cfg st t p =
          some ({done := true, value := some v, load := st.inputCache.length}, st)) ∧
    (∀ (cfg : TMConfig) (st : SamplingState) (t : String) (p : List (String × JValue)),
        mget (format_key t p) st.outputCache = none →
        TaskManager.submit_task cfg st t p =
          some ({done := false, value := none,
                 load := (mset (format_key t p) cfg.input_expire st.inputCache).length},
                {st with inputCache := mset (format_key t p) cfg.input_expire st.inputCache}) ∧
        mget (format_key t p) (mset (format_key t p) cfg.input_expire st.inputCache) =
          some cfg.input_expire) ∧
    (∀ (st : PriorityState) (t : String) (p : List (String × JValue))
        (s : String) (v : JValue),
        mget (format_key t p) st.outputCache = some s → jloads s = some v →
        DistributedTaskManager.submit_task st t p =
          some ({done := true, value := some v, load := st.buckets.length}, st)) ∧
    (∀ (st : PriorityState) (t : String) (p : List (String × JValue)),
        mget (format_key t p) st.outputCache = none →
        DistributedTaskManager.submit_task st t p =
          some ({done := false, value := none,
                 load := (zadd t (format_key t p) st.time st.buckets).length},
                {st with buckets := zadd t (format_key t p) st.time st.buckets}) ∧
        ∃ mem, mget t (zadd t (format_key t p) st.time st.buckets) = some mem ∧
          mget (format_key t p) mem = some st.time) := by
  refine ⟨?_, ?_, ?_, ?_⟩
  · intro cfg st t p s v hm hj
    simp only [TaskManager.submit_task, hm, hj, Option.map]
  · intro cfg st t p hm
    refine ⟨?_, mget_mset_self _ _ _⟩
    simp only [TaskManager.submit_task, TaskManager.update_input_key, hm]
  · intro st t p s v hm hj
    simp only [DistributedTaskManager.submit_task, hm, hj, Option.map]
  · intro st t p hm
    refine ⟨?_, zadd_member t (format_key t p) st.time st.buckets⟩
    simp only [DistributedTaskManager.submit_task, DistributedTaskManager.update_input_key, hm]

/-- Witness for C1: concrete submissions in both disciplines, against a
store holding a result for the key and against an empty store. -/
theorem submit_task_spec_witness :
    (mget (format_key "f" [("n", JValue.int 7)])
        [(format_key "f" [("n", JValue.int 7)],
          dumps (JValue.arr [JValue.arr [JValue.int 7, JValue.int 1]]))] =
        some (dumps (JValue.arr [JValue.arr [JValue.int 7, JValue.int 1]])) ∧
      jloads (dumps (JValue.arr [JValue.arr [JValue.int 7, JValue.int 1]])) =
        some (JValue.arr [JValue.arr [JValue.int 7, JValue.int 1]]) ∧
      TaskManager.submit_task ⟨60, 1⟩
        ⟨[], [(format_key "f" [("n", JValue.int 7)],
               dumps (JValue.arr [JValue.arr [JValue.int 7, JValue.int 1]]))]⟩
        "f" [("n", JValue.int 7)] =
        some ({done := true,
               value := some (JValue.arr [JValue.arr [JValue.int 7, JValue.int 1]]),
               load := 0},
              ⟨[], [(format_key "f" [("n", JValue.int 7)],
                     dumps (JValue.arr [JValue.arr [JValue.int 7, JValue.int 1]]))]⟩)) ∧
    (mget (format_key "f" [("n", JValue.int 7)]) ([] : List (String × String)) = none ∧
      DistributedTaskManager.submit_task ⟨[], [], 100⟩ "f" [("n", JValue.int 7)] =
        some ({done := false, value := none, load := 1},
              ⟨[("f", [(format_key "f" [("n", JValue.int 7)], 100)])], [], 100⟩)) := by
  constructor
  · refine ⟨by simp [mget], jloads_dumps _ rfl, ?_⟩
    exact submit_task_spec.1 ⟨60, 1⟩
      ⟨[], [(format_key "f" [("n", JValue.int 7)],
             dumps (JValue.arr [JValue.arr [JValue.int 7, JValue.int 1]]))]⟩
      "f" [("n", JValue.int 7)]
      (dumps (JValue.arr [JValue.arr [JValue.int 7, JValue.int 1]]))
      (JValue.arr [JValue.arr [JValue.int 7, JValue.int 1]])
      (by simp [mget]) (jloads_dumps _ rfl)
  · exact ⟨rfl, (submit_task_spec.2.2.2 ⟨[], [], 100⟩ "f" [("n", JValue.int 7)] rfl).1⟩

/-- **C5 counterexample**: in the priority discipline `load` comes from
`DBSIZE`, which counts Redis keys — one per task-type bucket — not
pending entries.  Submitting a second distinct task of the same type
returns `load = 1` while the Pending Store holds 2 entries. -/
theorem submit_load_counterexample :
    DistributedTaskManager.submit_task
        ⟨[("t", [(format_key "t" [("n", JValue.str "a")], 100)])], [], 100⟩
        "t" [("n", JValue.str "b")] =
      some ({done := false, value := none, load := 1},
            ⟨[("t", [(format_key "t" [("n", JValue.str "a")], 100),
                     (format_key "t" [("n", JValue.str "b")], 100)])], [], 100⟩) ∧
    totalEntries [("t", [(format_key "t" [("n", JValue.str "a")], 100),
                         (format_key "t" [("n", JValue.str "b")], 100)])] = 2 ∧
    (1 : Nat) ≠ 2 := by
  have hk1 : format_key "t" [("n", JValue.str "a")] = "[\"t\", [[\"n\", \"a\"]]]" := rfl
  have hk2 : format_key "t" [("n", JValue.str "b")] = "[\"t\", [[\"n\", \"b\"]]]" := rfl
  rw [hk1, hk2]
  refine ⟨?_, rfl, by decide⟩
  simp [DistributedTaskManager.submit_task, DistributedTaskManager.update_input_key,
    zadd, mget, mset, hk1, hk2]

/-- **C5 amended**: in the priority discipline the `load` returned by
`submit_task` equals the number of (non-empty) task-type buckets in the
Pending Store at query time — `DBSIZE`, the number of Redis keys — not
the total entry count summed across buckets. -/
theorem submit_load_amended :
    ∀ (st : PriorityState) (t : String) (p : List (String × JValue))
      (stat : TaskStatus) (st1 : PriorityState),
      DistributedTaskManager.submit_task st t p = some (stat, st1) →
      stat.load = st1.buckets.length := by
  intro st t p stat st1 h
  cases hm : mget (format_key t p) st.outputCache with
  | some s =>
    cases hj : jloads s with
    | some v =>
      simp only [DistributedTaskManager.submit_task, hm, hj, Option.map] at h
      injection h with h
      injection h with h1 h2
      subst h1
      subst h2
      rfl
    | none =>
      simp only [DistributedTaskManager.submit_task, hm, hj, Option.map] at h
      cases h
  | none =>
    simp only [DistributedTaskManager.submit_task,
      DistributedTaskManager.update_input_key, hm] at h
    injection h with h
    injection h with h1 h2
    subst h1
    subst h2
    rfl

/-- Witness for the amended C5: a first submission against the empty
store returns load 1, the number of buckets afterwards. -/
theorem submit_load_amended_witness :
    DistributedTaskManager.submit_task ⟨[], [], 100⟩ "t" [("n", JValue.int 1)] =
      some ({done := false, value := none, load := 1},
        ⟨[("t", [(format_key "t" [("n", JValue.int 1)], 100)])], [], 100⟩) ∧
    ({done := false, value := none, load := 1} : TaskStatus).load =
      ([("t", [(format_key "t" [("n", JValue.int 1)], 100)])] : Buckets).length :=
  ⟨rfl, submit_load_amended ⟨[], [], 100⟩ "t" [("n", JValue.int 1)] _ _ rfl⟩

/-! ### BZPOPMAX: which entry is popped -/

theorem zle_refl (a : String × Int) : zle a a := Or.inr ⟨rfl, le_refl _⟩

theorem zle_trans {a b c : String × Int} (h1 : zle a b) (h2 : zle b c) : zle a c := by
  rcases h1 with h1 | ⟨h1e, h1s⟩ <;> rcases h2 with h2 | ⟨h2e, h2s⟩
  · exact Or.inl (lt_trans h1 h2)
  · exact Or.inl (h2e ▸ h1)
  · exact Or.inl (h1e ▸ h2)
  · exact Or.inr ⟨h1e.trans h2e, le_trans h1s h2s⟩

/-- Reduction equations for `zstep`. -/
theorem zstep_none (e : String × Int) : zstep none e = some e := rfl

theorem zstep_some (m e : String × Int) :
    zstep (some m) e =
      if m.2 < e.2 ∨ (m.2 = e.2 ∧ m.1 < e.1) then some e else some m := rfl

/-- The fold underlying `zmax` always yields an element dominating the
accumulator and every scanned element. -/
theorem zmax_foldl (t : List (String × Int)) : ∀ m : String × Int,
    ∃ mx, t.foldl zstep (some m) = some mx ∧
      zle m mx ∧ (mx = m ∨ mx ∈ t) ∧ ∀ e ∈ t, zle e mx := by
  induction t with
  | nil => exact fun m => ⟨m, rfl, zle_refl m, Or.inl rfl, by simp⟩
  | cons e t ih =>
    intro m
    by_cases hc : m.2 < e.2 ∨ (m.2 = e.2 ∧ m.1 < e.1)
    · obtain ⟨mx, hfold, hm, hmem, hall⟩ := ih e
      refine ⟨mx, ?_, ?_, ?_, ?_⟩
      · rw [List.foldl_cons, zstep_some, if_pos hc]
        exact hfold
      · have hme : zle m e := by
          rcases hc with hc | ⟨hce, hcs⟩
          · exact Or.inl hc
          · exact Or.inr ⟨hce, le_of_lt hcs⟩
        exact zle_trans hme hm
      · rcases hmem with rfl | hmem
        · exact Or.inr (by simp)
        · exact Or.inr (by simp [hmem])
      · intro e1 he1
        rcases List.mem_cons.mp he1 with rfl | he1
        · exact hm
        · exact hall e1 he1
    · obtain ⟨mx, hfold, hm, hmem, hall⟩ := ih m
      refine ⟨mx, ?_, hm, ?_, ?_⟩
      · rw [List.foldl_cons, zstep_some, if_neg hc]
        exact hfold
      · rcases hmem with rfl | hmem
        · exact Or.inl rfl
        · exact Or.inr (by simp [hmem])
      · intro e1 he1
        rcases List.mem_cons.mp he1 with rfl | he1
        · -- the rejected element is dominated by the accumulator
          have hem : zle e1 m := by
            push_neg at hc
            rcases eq_or_lt_of_le hc.1 with heq | hlt
            · exact Or.inr ⟨heq, hc.2 heq.symm⟩
            · exact Or.inl hlt
          exact zle_trans hem hm
        · exact hall e1 he1

/-- `ZPOPMAX` pops a member of the set that dominates every member in the
(score, member) order. -/
theorem zmax_spec (mem : List (String × Int)) (k : String) (s : Int)
    (h : zmax mem = some (k, s)) :
    (k, s) ∈ mem ∧ ∀ e ∈ mem, zle e (k, s) := by
  cases mem with
  | nil => cases h
  | cons e t =>
    obtain ⟨mx, hfold, _, hmem, hall⟩ := zmax_foldl t e
    unfold zmax at h
    rw [List.foldl_cons, zstep_none, hfold] at h
    injection h with h
    subst h
    constructor
    · rcases hmem with rfl | hmem
      · simp
      · simp [hmem]
    · intro e1 he1
      rcases List.mem_cons.mp he1 with rfl | he1
      · obtain ⟨mx2, hfold2, hm2, _, _⟩ := zmax_foldl t e1
        rw [hfold2] at hfold
        injection hfold with hfold
      · exact hall e1 he1

theorem zmax_none {mem : List (String × Int)} (h : zmax mem = none) : mem = [] := by
  cases mem with
  | nil => rfl
  | cons e t =>
    obtain ⟨mx, hfold, _, _, _⟩ := zmax_foldl t e
    unfold zmax at h
    rw [List.foldl_cons, zstep_none, hfold] at h
    cases h

/-- Reduction lemmas for `popBucket`. -/
theorem popBucket_none {t : String} {bs : Buckets} (hb : mget t bs = none) :
    popBucket t bs = none := by
  unfold popBucket
  rw [hb]

theorem popBucket_some {t : String} {bs : Buckets} {mem : List (String × Int)}
    (hb : mget t bs = some mem) : popBucket t bs = popMem t mem bs := by
  unfold popBucket
  rw [hb]

theorem popMem_empty {t : String} {bs : Buckets} {mem : List (String × Int)}
    (hz : zmax mem = none) : popMem t mem bs = none := by
  unfold popMem
  rw [hz]

theorem popMem_max {t : String} {bs : Buckets} {mem : List (String × Int)}
    {k : String} {s : Int} (hz : zmax mem = some (k, s)) :
    popMem t mem bs =
      some (t, k, s,
        if mem.filter (fun e => !(e.1 == k)) = [] then mdel t bs
        else mset t (mem.filter (fun e => !(e.1 == k))) bs) := by
  unfold popMem
  rw [hz]

/-- `BZPOPMAX` pops from the first bucket, in the order the key names are
given, that is non-empty; the popped member dominates its bucket in the
(score, member) order — but nothing relates it to other buckets. -/
theorem bzpopmax_spec : ∀ (kts : List String) (bs : Buckets)
    (t k : String) (s : Int) (bs2 : Buckets),
    bzpopmax kts bs = some (t, k, s, bs2) →
    ∃ pre post, kts = pre ++ t :: post ∧
      (∀ u ∈ pre, mget u bs = none ∨ mget u bs = some []) ∧
      ∃ mem, mget t bs = some mem ∧ (k, s) ∈ mem ∧ (∀ e ∈ mem, zle e (k, s)) ∧
        bs2 = (if mem.filter (fun e => !(e.1 == k)) = [] then mdel t bs
               else mset t (mem.filter (fun e => !(e.1 == k))) bs) := by
  intro kts
  induction kts with
  | nil => intro bs t k s bs2 h; cases h
  | cons t1 rest ih =>
    intro bs t k s bs2 h
    unfold bzpopmax at h
    cases hb : mget t1 bs with
    | none =>
      rw [popBucket_none hb] at h
      obtain ⟨pre, post, hsplit, hpre, hrest⟩ := ih bs t k s bs2 h
      refine ⟨t1 :: pre, post, by simp [hsplit], ?_, hrest⟩
      intro u hu
      rcases List.mem_cons.mp hu with rfl | hu
      · exact Or.inl hb
      · exact hpre u hu
    | some mem =>
      rw [popBucket_some hb] at h
      cases hz : zmax mem with
      | none =>
        rw [popMem_empty hz] at h
        have hmem := zmax_none hz
        obtain ⟨pre, post, hsplit, hpre, hrest⟩ := ih bs t k s bs2 h
        refine ⟨t1 :: pre, post, by simp [hsplit], ?_, hrest⟩
        intro u hu
        rcases List.mem_cons.mp hu with rfl | hu
        · exact Or.inr (hmem ▸ hb)
        · exact hpre u hu
      | some e =>
        obtain ⟨k1, s1⟩ := e
        rw [popMem_max hz] at h
        injection h with h
        simp only [Prod.mk.injEq] at h
        obtain ⟨rfl, rfl, rfl, hbs⟩ := h
        obtain ⟨hmem, hall⟩ := zmax_spec mem k1 s1 hz
        exact ⟨[], rest, rfl, by simp, mem, hb, hmem, hall, hbs.symm⟩

/-! ### C3: which task is popped first -/

/-- **C3 counterexample**: with two buckets scanned in registration order,
`BZPOPMAX` pops the (older) entry of the first non-empty bucket even
though the other bucket holds a strictly more recent entry — the pop is
not the globally highest timestamp across buckets. -/
theorem pop_order_counterexample :
    bzpopmax ["a", "b"] [("a", [("ka", 10)]), ("b", [("kb", 20)])] =
      some ("a", "ka", 10, [("b", [("kb", 20)])]) ∧
    mget "b" [("a", [("ka", (10 : Int))]), ("b", [("kb", 20)])] = some [("kb", 20)] ∧
    (10 : Int) < 20 :=
  ⟨rfl, rfl, by decide⟩

/-- **C3 amended**: the blocking pop returns the highest-timestamp entry
of the *first non-empty bucket in the registered key order* (Redis
BZPOPMAX semantics): every bucket listed before it is absent or empty,
and the popped entry dominates its own bucket by (timestamp, member) —
so most-recently-submitted-first holds within a single bucket, while
across buckets the earlier-listed bucket always wins. -/
theorem pop_order_amended :
    ∀ (kts : List String) (bs : Buckets) (t k : String) (s : Int) (bs2 : Buckets),
      bzpopmax kts bs = some (t, k, s, bs2) →
      (∃ pre post, kts = pre ++ t :: post ∧
        (∀ u ∈ pre, mget u bs = none ∨ mget u bs = some [])) ∧
      (∃ mem, mget t bs = some mem ∧ (k, s) ∈ mem ∧
        ∀ e ∈ mem, e.2 < s ∨ (e.2 = s ∧ e.1 ≤ k)) := by
  intro kts bs t k s bs2 h
  obtain ⟨pre, post, hsplit, hpre, mem, hmem, hin, hall, _⟩ := bzpopmax_spec kts bs t k s bs2 h
  exact ⟨⟨pre, post, hsplit, hpre⟩, ⟨mem, hmem, hin, hall⟩⟩

/-- Witness for the amended C3: a single bucket with two entries; the
more recent one is popped. -/
theorem pop_order_amended_witness :
    bzpopmax ["a"] [("a", [("k1", 5), ("k2", 9)])] =
      some ("a", "k2", 9, [("a", [("k1", 5)])]) ∧
    ((∃ pre post, ["a"] = pre ++ "a" :: post ∧
        (∀ u ∈ pre, mget u [("a", [("k1", (5 : Int)), ("k2", 9)])] = none ∨
          mget u [("a", [("k1", (5 : Int)), ("k2", 9)])] = some [])) ∧
      (∃ mem, mget "a" [("a", [("k1", (5 : Int)), ("k2", 9)])] = some mem ∧
        ("k2", (9 : Int)) ∈ mem ∧
        ∀ e ∈ mem, e.2 < 9 ∨ (e.2 = 9 ∧ e.1 ≤ "k2"))) :=
  ⟨rfl, pop_order_amended ["a"] [("a", [("k1", 5), ("k2", 9)])] "a" "k2" 9
    [("a", [("k1", 5)])] rfl⟩

/-! ### C6: the eviction pass -/

theorem mget_mdel_ne {α : Type} (k k2 : String) (m : List (String × α)) (h : k ≠ k2) :
    mget k (mdel k2 m) = mget k m := by
  induction m with
  | nil => rfl
  | cons kv rest ih =>
    obtain ⟨k1, v1⟩ := kv
    by_cases h1 : k1 = k2
    · subst h1
      have h2 : ¬ (k1 = k) := fun he => h he.symm
      simp [mdel, mget, h2]
    · simp only [mdel, h1, if_false]
      by_cases h2 : k1 = k
      · simp [mget, h2]
      · simp [mget, h2, ih]

theorem mget_mdel_self {α : Type} (k : String) (m : List (String × α))
    (hwf : strNodup (m.map Prod.fst) = true) : mget k (mdel k m) = none := by
  induction m with
  | nil => rfl
  | cons kv rest ih =>
    obtain ⟨k1, v1⟩ := kv
    simp only [List.map_cons, strNodup, Bool.and_eq_true, Bool.not_eq_true'] at hwf
    by_cases h1 : k1 = k
    · subst h1
      simp only [mdel, eq_self_iff_true, if_true]
      cases hm : mget k1 rest with
      | none => rfl
      | some w =>
        exfalso
        have hmm : k1 ∈ rest.map Prod.fst := by
          clear ih hwf
          induction rest with
          | nil => cases hm
          | cons kv2 rest2 ih2 =>
            obtain ⟨k3, v3⟩ := kv2
            by_cases h3 : k3 = k1
            · simp [h3]
            · simp only [mget, h3, if_false] at hm
              simp [ih2 hm]
        have hc := List.elem_iff.mpr hmm
        have hw : List.elem k1 (rest.map Prod.fst) = false := hwf.1
        rw [hw] at hc
        cases hc
    · simp [mdel, mget, h1, ih hwf.2]

/-- Membership in the survivors of `ZREMRANGEBYSCORE lo hi`: exactly the
entries whose score lies outside the inclusive range `[lo, hi]`. -/
theorem zremAux_mem (lo hi : Int) (mem : List (String × Int)) (k : String) (s : Int) :
    (k, s) ∈ zremAux lo hi mem ↔ (k, s) ∈ mem ∧ ¬(lo ≤ s ∧ s ≤ hi) := by
  simp only [zremAux, List.mem_filter, Bool.not_eq_true', Bool.and_eq_false_iff,
    decide_eq_false_iff_not, not_and, not_le]
  constructor
  · rintro ⟨hm2, hs⟩
    exact ⟨hm2, by omega⟩
  · rintro ⟨hm2, hs⟩
    refine ⟨hm2, ?_⟩
    by_cases h0 : lo ≤ s
    · exact Or.inr (by omega)
    · exact Or.inl (by omega)

/-- Survivors of the score-range removal were already members. -/
theorem zremAux_sub (lo hi : Int) (mem : List (String × Int)) (e : String × Int)
    (h : e ∈ zremAux lo hi mem) : e ∈ mem :=
  (List.mem_filter.mp h).1

/-- Updating a key that is present leaves the key list unchanged. -/
theorem map_fst_mset {α : Type} (k : String) (v v0 : α) (m : List (String × α))
    (h : mget k m = some v0) : (mset k v m).map Prod.fst = m.map Prod.fst := by
  induction m with
  | nil => cases h
  | cons kv rest ih =>
    obtain ⟨k1, v1⟩ := kv
    by_cases h1 : k1 = k
    · simp [mset, h1]
    · simp only [mget, h1, if_false] at h
      simp [mset, h1, ih h]

/-- Deleting a key yields a sublist of the original key list. -/
theorem mdel_keys_sublist {α : Type} (k : String) (m : List (String × α)) :
    List.Sublist ((mdel k m).map Prod.fst) (m.map Prod.fst) := by
  induction m with
  | nil => simp [mdel]
  | cons kv rest ih =>
    obtain ⟨k1, v1⟩ := kv
    by_cases h1 : k1 = k
    · simp only [mdel, h1, if_pos rfl, List.map_cons]
      exact List.sublist_cons_self _ _
    · simp only [mdel, h1, if_false, List.map_cons]
      exact List.Sublist.cons₂ _ ih

/-- Equation: evicting from an absent key leaves the DB unchanged. -/
theorem zrem_eq_none (kt : String) (lo hi : Int) (bs : Buckets)
    (hm : mget kt bs = none) : zremrangebyscore kt lo hi bs = bs := by
  unfold zremrangebyscore
  rw [hm]

/-- Equation: evicting from a present key filters its sorted set, deleting
the key when nothing survives. -/
theorem zrem_eq_some (kt : String) (lo hi : Int) (bs : Buckets)
    (mem : List (String × Int)) (hm : mget kt bs = some mem) :
    zremrangebyscore kt lo hi bs =
      if zremAux lo hi mem = [] then mdel kt bs
      else mset kt (zremAux lo hi mem) bs := by
  unfold zremrangebyscore
  rw [hm]

/-- The eviction of one key type preserves distinctness of the DB keys. -/
theorem zrem_nodup (kt : String) (lo hi : Int) (bs : Buckets)
    (hn : strNodup (bs.map Prod.fst) = true) :
    strNodup ((zremrangebyscore kt lo hi bs).map Prod.fst) = true := by
  cases hm : mget kt bs with
  | none => rw [zrem_eq_none kt lo hi bs hm]; exact hn
  | some mem =>
    rw [zrem_eq_some kt lo hi bs mem hm]
    by_cases he : zremAux lo hi mem = []
    · rw [if_pos he]
      exact strNodup_iff.mpr ((strNodup_iff.mp hn).sublist (mdel_keys_sublist kt bs))
    · rw [if_neg he, map_fst_mset kt _ mem bs hm]
      exact hn

/-- Any bucket read after one eviction step is a sub-bucket of a bucket of
the original state (assuming distinct DB keys). -/
theorem zrem_get_sub (kt t : String) (lo hi : Int) (bs : Buckets)
    (hn : strNodup (bs.map Prod.fst) = true) (mem1 : List (String × Int))
    (h : mget t (zremrangebyscore kt lo hi bs) = some mem1) :
    ∃ mem, mget t bs = some mem ∧ ∀ e ∈ mem1, e ∈ mem := by
  by_cases hkt : t = kt
  · subst hkt
    cases hm : mget t bs with
    | none => rw [zrem_eq_none t lo hi bs hm, hm] at h; cases h
    | some mem =>
      rw [zrem_eq_some t lo hi bs mem hm] at h
      by_cases he : zremAux lo hi mem = []
      · rw [if_pos he, mget_mdel_self t bs hn] at h
        cases h
      · rw [if_neg he, mget_mset_self] at h
        cases h
        refine ⟨mem, ?_, fun e he2 => zremAux_sub lo hi mem e he2⟩
        first
        | exact hm
        | rfl
  · cases hm : mget kt bs with
    | none =>
      rw [zrem_eq_none kt lo hi bs hm] at h
      exact ⟨mem1, h, fun e he2 => he2⟩
    | some mem =>
      rw [zrem_eq_some kt lo hi bs mem hm] at h
      by_cases he : zremAux lo hi mem = []
      · rw [if_pos he, mget_mdel_ne t kt bs hkt] at h
        exact ⟨mem1, h, fun e he2 => he2⟩
      · rw [if_neg he, mget_mset_ne kt t _ bs hkt] at h
        exact ⟨mem1, h, fun e he2 => he2⟩

/-- After evicting the score range `[0, c]` from key type `kt`, every entry
still readable under `kt` has a score outside that range. -/
theorem zrem_self_clean (kt : String) (c : Int) (bs : Buckets)
    (hn : strNodup (bs.map Prod.fst) = true) (mem1 : List (String × Int))
    (h : mget kt (zremrangebyscore kt 0 c bs) = some mem1) :
    ∀ e ∈ mem1, ¬(0 ≤ e.2 ∧ e.2 ≤ c) := by
  cases hm : mget kt bs with
  | none => rw [zrem_eq_none kt 0 c bs hm, hm] at h; cases h
  | some mem =>
    rw [zrem_eq_some kt 0 c bs mem hm] at h
    by_cases he : zremAux 0 c mem = []
    · rw [if_pos he, mget_mdel_self kt bs hn] at h
      cases h
    · rw [if_neg he, mget_mset_self] at h
      cases h
      intro e he2
      obtain ⟨ek, es⟩ := e
      exact ((zremAux_mem 0 c mem ek es).mp he2).2

/-- A bucket-cleanliness bound survives the whole eviction pass: the pass
only removes entries, never adds any. -/
theorem clean_preserved (tnow expire c : Int) :
    ∀ (kts : List String) (bs : Buckets) (t : String),
    strNodup (bs.map Prod.fst) = true →
    (∀ mem, mget t bs = some mem → ∀ e ∈ mem, ¬(0 ≤ e.2 ∧ e.2 ≤ c)) →
    (∀ mem, mget t (evictPhase kts tnow expire bs) = some mem →
      ∀ e ∈ mem, ¬(0 ≤ e.2 ∧ e.2 ≤ c)) := by
  intro kts
  induction kts with
  | nil => intro bs t _ hcl mem hget; exact hcl mem hget
  | cons kt rest ih =>
    intro bs t hn hcl mem hget
    have hstep : evictPhase (kt :: rest) tnow expire bs =
        evictPhase rest tnow expire (zremrangebyscore kt 0 (tnow - expire) bs) := rfl
    rw [hstep] at hget
    refine ih (zremrangebyscore kt 0 (tnow - expire) bs) t
      (zrem_nodup kt 0 (tnow - expire) bs hn) ?_ mem hget
    intro mem1 h1 e he
    obtain ⟨mem0, hm0, hsub⟩ := zrem_get_sub kt t 0 (tnow - expire) bs hn mem1 h1
    exact hcl mem0 hm0 e (hsub e he)

/-- After a full eviction pass, every entry readable under any of the
evicted key types has a score outside `[0, tnow - expire]`. -/
theorem evict_clean (tnow expire : Int) :
    ∀ (kts : List String) (bs : Buckets) (t : String),
    strNodup (bs.map Prod.fst) = true → t ∈ kts →
    ∀ mem, mget t (evictPhase kts tnow expire bs) = some mem →
      ∀ e ∈ mem, ¬(0 ≤ e.2 ∧ e.2 ≤ tnow - expire) := by
  intro kts
  induction kts with
  | nil => intro bs t _ ht; cases ht
  | cons kt rest ih =>
    intro bs t hn ht mem hget
    have hstep : evictPhase (kt :: rest) tnow expire bs =
        evictPhase rest tnow expire (zremrangebyscore kt 0 (tnow - expire) bs) := rfl
    rw [hstep] at hget
    have hn1 := zrem_nodup kt 0 (tnow - expire) bs hn
    rcases List.mem_cons.mp ht with heq | hrest
    · subst heq
      exact clean_preserved tnow expire (tnow - expire) rest _ t hn1
        (fun mem1 h1 => zrem_self_clean t (tnow - expire) bs hn mem1 h1) mem hget
    · exact ih _ t hn1 hrest mem hget

/-- **C6** counterexample: with `now = 60` and `input_expire = 60` the
cutoff `now - input_expire` is `0`.  A pending entry whose timestamp is
exactly `0` is not strictly older than the cutoff, so the spec says it is
retained; but `ZREMRANGEBYSCORE key_type 0 (time - input_expire)` removes
the inclusive score range `[0, 0]`, so the eviction pass deletes it (and
with it the whole bucket). -/
theorem evict_boundary_counterexample :
    evictPhase ["a"] 60 60 [("a", [("k", (0 : Int))])] = [] ∧
    ¬((0 : Int) < 60 - 60) := by
  exact ⟨rfl, by decide⟩

/-- **C6** (amended): the eviction pass before each pop removes, for every
registered task type, exactly the bucket entries whose timestamp lies in
the inclusive range `[0, now - input_expire]` — entries with timestamp
strictly greater than the cutoff are retained, but an entry with timestamp
exactly equal to the cutoff is removed too (and a negative timestamp is
never removed).  Consequently, whatever the blocking pop returns after the
pass has a timestamp outside `[0, now - input_expire]`: no entry at least
`input_expire` old (by the store clock, and nonnegative) is ever popped. -/
theorem evict_window_amended (key_types : List String) (tnow expire : Int)
    (bs : Buckets) (hn : strNodup (bs.map Prod.fst) = true) :
    (∀ (lo hi : Int) (mem : List (String × Int)) (k : String) (s : Int),
      (k, s) ∈ zremAux lo hi mem ↔ (k, s) ∈ mem ∧ ¬(lo ≤ s ∧ s ≤ hi)) ∧
    (∀ (t k : String) (s : Int) (bs2 : Buckets),
      bzpopmax key_types (evictPhase key_types tnow expire bs) = some (t, k, s, bs2) →
      ¬(0 ≤ s ∧ s ≤ tnow - expire)) := by
  refine ⟨fun lo hi mem k s => zremAux_mem lo hi mem k s, ?_⟩
  intro t k s bs2 hpop
  obtain ⟨pre, post, hkts, _, mem, hget, hmem, _⟩ :=
    bzpopmax_spec key_types (evictPhase key_types tnow expire bs) t k s bs2 hpop
  have ht : t ∈ key_types := by
    rw [hkts]
    exact List.mem_append.mpr (Or.inr (List.mem_cons_self t post))
  exact evict_clean tnow expire key_types bs t hn ht mem hget (k, s) hmem

/-- **C6** witness: one registered type, store clock `100`, expiry window
`60`; a pending entry stamped `90` survives the eviction pass and is the
one popped, and its timestamp indeed exceeds the cutoff `40`. -/
theorem evict_window_amended_witness :
    strNodup (([("a", [("k", (90 : Int))])] : Buckets).map Prod.fst) = true ∧
    ¬((0 : Int) ≤ 90 ∧ (90 : Int) ≤ 100 - 60) :=
  ⟨by decide,
    (evict_window_amended ["a"] 100 60 [("a", [("k", (90 : Int))])] (by decide)).2
      "a" "k" 90 [] rfl⟩

/-- **C4** counterexample: in the priority variant the blocking pop has
already removed the task from its bucket when the handler runs, and the
`except Exception` clause does not put it back.  Concretely: one
registered type, one pending task, a handler that raises; after the
iteration the Pending Store is empty (the task will never be retried),
even though nothing was written to the Result Store and the loop
continues. -/
theorem handler_raise_pending_counterexample :
    DistributedTaskManager.process_step 200 [("a", fun _ => none)] none
      ⟨[("a", [(format_key "a" [], 100)])], [], 150⟩ =
    ⟨⟨[], [], 150⟩, false⟩ :=
  rfl

/-- **C4** (amended): when the handler raises, neither variant writes
anything to the Result Store and neither loop terminates (absent a
lock-release `LockError`, which C7 covers); the task remains pending in
the sampling variant, whose iteration is a complete no-op — but in the
priority variant the state is exactly the post-pop state `bs2`, i.e. the
popped entry has already left the Pending Store and is not restored. -/
theorem handler_raise_amended (handlers : List (String × Handler)) :
    (∀ (st : SamplingState) (key key_type : String)
        (kp : List (String × JValue)) (h : Handler),
      parse_key key = some (key_type, kp) →
      mget key_type handlers = some h →
      h kp = none →
      TaskManager.sampleTrace handlers (some key) = [] ∧
      TaskManager.sampleStep handlers (some key) st = st) ∧
    (∀ (expire : Int) (lockEnv : DistributedTaskManager.LockEnv) (pst : PriorityState)
        (t k key_type2 : String) (s : Int) (bs2 : Buckets)
        (kp : List (String × JValue)) (h : Handler),
      bzpopmax (handlers.map Prod.fst)
          (evictPhase (handlers.map Prod.fst) pst.time expire pst.buckets) =
        some (t, k, s, bs2) →
      parse_key k = some (key_type2, kp) →
      mget t handlers = some h →
      h kp = none →
      (lockEnv = none ∨ lockEnv = some (true, .ok) ∨ lockEnv = some (true, .notOwned)) →
      (DistributedTaskManager.process_step expire handlers lockEnv pst).state.outputCache =
          pst.outputCache ∧
      (DistributedTaskManager.process_step expire handlers lockEnv pst).state.buckets = bs2 ∧
      (DistributedTaskManager.process_step expire handlers lockEnv pst).fatal = false) := by
  constructor
  · intro st key key_type kp h hp hh hraise
    have htr : TaskManager.sampleTrace handlers (some key) = [] := by
      simp only [TaskManager.sampleTrace, hp, hh, hraise]
    exact ⟨htr, by simp only [TaskManager.sampleStep, htr, List.foldl]⟩
  · intro expire lockEnv pst t k key_type2 s bs2 kp h hpop hp hh hraise hlock
    rcases hlock with hl | hl | hl <;> subst hl <;>
      simp only [DistributedTaskManager.process_step, hpop, hp, hh, hraise,
        Bool.not_true, if_false, ite_false, Bool.false_eq_true] <;>
      exact ⟨trivial, trivial, trivial⟩

/-- **C4** witness: one registered type whose handler raises; the sampling
iteration leaves the state untouched, and the priority iteration keeps the
Result Store empty and continues while handing back the popped (empty)
bucket state. -/
theorem handler_raise_amended_witness :
    (TaskManager.sampleTrace [("a", fun _ => none)] (some (format_key "a" [])) = [] ∧
     TaskManager.sampleStep [("a", fun _ => none)] (some (format_key "a" []))
       ⟨[(format_key "a" [], 60)], []⟩ = ⟨[(format_key "a" [], 60)], []⟩) ∧
    ((DistributedTaskManager.process_step 200 [("a", fun _ => none)] none
        ⟨[("a", [(format_key "a" [], 100)])], [], 150⟩).state.outputCache = [] ∧
     (DistributedTaskManager.process_step 200 [("a", fun _ => none)] none
        ⟨[("a", [(format_key "a" [], 100)])], [], 150⟩).state.buckets = [] ∧
     (DistributedTaskManager.process_step 200 [("a", fun _ => none)] none
        ⟨[("a", [(format_key "a" [], 100)])], [], 150⟩).fatal = false) :=
  ⟨(handler_raise_amended [("a", fun _ => none)]).1
      ⟨[(format_key "a" [], 60)], []⟩ (format_key "a" []) "a" [] (fun _ => none)
      rfl rfl rfl,
   (handler_raise_amended [("a", fun _ => none)]).2
      200 none ⟨[("a", [(format_key "a" [], 100)])], [], 150⟩
      "a" (format_key "a" []) "a" 100 [] [] (fun _ => none)
      rfl rfl rfl rfl (Or.inl rfl)⟩

/-- **C7**: with a configured lock, a successful handler's result is in
the Result Store whatever the release outcome — it was written inside the
`with` block, before release; a `LockNotOwnedError` at release is absorbed
(not fatal), a clean release is not fatal, any other `LockError` at
release is fatal, and a failed acquisition is fatal for every release
outcome. -/
theorem lock_release_spec (expire : Int) (handlers : List (String × Handler))
    (pst : PriorityState) (t k key_type2 : String) (s : Int) (bs2 : Buckets)
    (kp : List (String × JValue)) (h : Handler) (v : JValue)
    (hpop : bzpopmax (handlers.map Prod.fst)
        (evictPhase (handlers.map Prod.fst) pst.time expire pst.buckets) =
      some (t, k, s, bs2))
    (hp : parse_key k = some (key_type2, kp))
    (hh : mget t handlers = some h)
    (hsucc : h kp = some v) :
    (∀ rel : DistributedTaskManager.LockRel,
      (DistributedTaskManager.process_step expire handlers
          (some (true, rel)) pst).state.outputCache =
        mset k (dumps v) pst.outputCache) ∧
    (DistributedTaskManager.process_step expire handlers
        (some (true, .notOwned)) pst).fatal = false ∧
    (DistributedTaskManager.process_step expire handlers
        (some (true, .ok)) pst).fatal = false ∧
    (DistributedTaskManager.process_step expire handlers
        (some (true, .err)) pst).fatal = true ∧
    (∀ rel : DistributedTaskManager.LockRel,
      (DistributedTaskManager.process_step expire handlers
          (some (false, rel)) pst).fatal = true ∧
      (DistributedTaskManager.process_step expire handlers
          (some (false, rel)) pst).state.outputCache = pst.outputCache) := by
  refine ⟨fun rel => ?_, ?_, ?_, ?_, fun rel => ⟨?_, ?_⟩⟩ <;>
    simp only [DistributedTaskManager.process_step, hpop, hp, hh, hsucc,
      Bool.not_true, Bool.not_false, if_false, ite_false, ite_true,
      Bool.false_eq_true, Bool.true_eq_false] <;>
    first
    | (cases rel <;> trivial)
    | trivial

/-- **C7** witness: one registered type, a handler returning `"r"`, the
lock configured; the popped task's result is stored under every release
outcome, lock-not-owned and clean release continue the loop, a release
`LockError` and a failed acquisition terminate it. -/
theorem lock_release_spec_witness :
    (∀ rel : DistributedTaskManager.LockRel,
      (DistributedTaskManager.process_step 200 [("a", fun _ => some (JValue.str "r"))]
          (some (true, rel))
          ⟨[("a", [(format_key "a" [], 100)])], [], 150⟩).state.outputCache =
        mset (format_key "a" []) (dumps (JValue.str "r")) []) ∧
    (DistributedTaskManager.process_step 200 [("a", fun _ => some (JValue.str "r"))]
        (some (true, .notOwned))
        ⟨[("a", [(format_key "a" [], 100)])], [], 150⟩).fatal = false ∧
    (DistributedTaskManager.process_step 200 [("a", fun _ => some (JValue.str "r"))]
        (some (true, .ok))
        ⟨[("a", [(format_key "a" [], 100)])], [], 150⟩).fatal = false ∧
    (DistributedTaskManager.process_step 200 [("a", fun _ => some (JValue.str "r"))]
        (some (true, .err))
        ⟨[("a", [(format_key "a" [], 100)])], [], 150⟩).fatal = true ∧
    (∀ rel : DistributedTaskManager.LockRel,
      (DistributedTaskManager.process_step 200 [("a", fun _ => some (JValue.str "r"))]
          (some (false, rel))
          ⟨[("a", [(format_key "a" [], 100)])], [], 150⟩).fatal = true ∧
      (DistributedTaskManager.process_step 200 [("a", fun _ => some (JValue.str "r"))]
          (some (false, rel))
          ⟨[("a", [(format_key "a" [], 100)])], [], 150⟩).state.outputCache = []) :=
  lock_release_spec 200 [("a", fun _ => some (JValue.str "r"))]
    ⟨[("a", [(format_key "a" [], 100)])], [], 150⟩
    "a" (format_key "a" []) "a" 100 [] [] (fun _ => some (JValue.str "r"))
    (JValue.str "r") rfl rfl rfl rfl

/-- **C10**: in the sampling processor, any iteration that deletes a key
from the input cache has the two-effect trace `[setOutput k v, delInput k]`
— the result write strictly precedes the deletion and the deletion is the
iteration's last effect; consequently a key that was pending before the
iteration and is gone after it has its result present in the output
cache. -/
theorem sample_delete_last (handlers : List (String × Handler)) (sampled : Option String) :
    (∀ k, TaskManager.SEffect.delInput k ∈ TaskManager.sampleTrace handlers sampled →
      ∃ v, TaskManager.sampleTrace handlers sampled =
        [TaskManager.SEffect.setOutput k v, TaskManager.SEffect.delInput k]) ∧
    (∀ (st : SamplingState) (k : String),
      mget k st.inputCache ≠ none →
      mget k (TaskManager.sampleStep handlers sampled st).inputCache = none →
      ∃ v, mget k (TaskManager.sampleStep handlers sampled st).outputCache = some v) := by
  cases sampled with
  | none =>
    refine ⟨fun k hk => ?_, fun st k hpre hpost => ?_⟩
    · simp [TaskManager.sampleTrace] at hk
    · exact absurd hpost hpre
  | some key =>
    cases hp : parse_key key with
    | none =>
      refine ⟨fun k hk => ?_, fun st k hpre hpost => ?_⟩
      · simp [TaskManager.sampleTrace, hp] at hk
      · rw [show TaskManager.sampleStep handlers (some key) st = st by
          simp [TaskManager.sampleStep, TaskManager.sampleTrace, hp]] at hpost
        exact absurd hpost hpre
    | some pr =>
      obtain ⟨key_type, kp⟩ := pr
      cases hh : mget key_type handlers with
      | none =>
        refine ⟨fun k hk => ?_, fun st k hpre hpost => ?_⟩
        · simp [TaskManager.sampleTrace, hp, hh] at hk
        · rw [show TaskManager.sampleStep handlers (some key) st = st by
            simp [TaskManager.sampleStep, TaskManager.sampleTrace, hp, hh]] at hpost
          exact absurd hpost hpre
      | some handler =>
        cases hv : handler kp with
        | none =>
          refine ⟨fun k hk => ?_, fun st k hpre hpost => ?_⟩
          · simp [TaskManager.sampleTrace, hp, hh, hv] at hk
          · rw [show TaskManager.sampleStep handlers (some key) st = st by
              simp [TaskManager.sampleStep, TaskManager.sampleTrace, hp, hh, hv]] at hpost
            exact absurd hpost hpre
        | some value =>
          have htr : TaskManager.sampleTrace handlers (some key) =
              [TaskManager.SEffect.setOutput key (dumps value), TaskManager.SEffect.delInput key] := by
            simp [TaskManager.sampleTrace, hp, hh, hv]
          refine ⟨fun k hk => ?_, fun st k hpre hpost => ?_⟩
          · rw [htr] at hk
            simp only [List.mem_cons, List.not_mem_nil, or_false] at hk
            rcases hk with hk | hk
            · cases hk
            · cases hk
              exact ⟨dumps value, htr⟩
          · have hstep : TaskManager.sampleStep handlers (some key) st =
                {st with outputCache := mset key (dumps value) st.outputCache,
                         inputCache := mdel key st.inputCache} := by
              simp [TaskManager.sampleStep, htr, TaskManager.applyEffect]
            rw [hstep] at hpost
            rw [hstep]
            by_cases hkey : k = key
            · subst hkey
              exact ⟨dumps value, mget_mset_self k (dumps value) st.outputCache⟩
            · rw [mget_mdel_ne k key st.inputCache hkey] at hpost
              exact absurd hpost hpre

/-- **C10** witness: a successful iteration on a concrete one-task state
removes the key from the input cache and indeed leaves its result
readable in the output cache. -/
theorem sample_delete_last_witness :
    ∃ v, mget (format_key "a" [])
      (TaskManager.sampleStep [("a", fun _ => some (JValue.str "r"))]
        (some (format_key "a" []))
        ⟨[(format_key "a" [], 60)], []⟩).outputCache = some v :=
  (sample_delete_last [("a", fun _ => some (JValue.str "r"))]
      (some (format_key "a" []))).2
    ⟨[(format_key "a" [], 60)], []⟩ (format_key "a" []) (by decide) rfl

end RedisTasks
